import Mathlib

set_option maxHeartbeats 1000000
set_option maxRecDepth 16384
/- Batteries marks the `Rat` field operations `@[irreducible]`, which blocks
`decide` on concrete rational computations; restore default reducibility so
concrete pipeline evaluations can go through the kernel. -/
set_option allowUnsafeReducibility true
attribute [semireducible] Rat.add Rat.mul Rat.sub Rat.inv Rat.div Rat.neg

/-!
Shallow embedding of the NeuroStamp watermarking core
(src/src/core.py, src/src/utils.py, src/main.py).

Modelling conventions:
* Python floats that only ever hold dyadic rationals (Haar wavelet
  coefficients of integer pixel data, plus rational embedding strengths)
  are modelled as `ℚ`; the arithmetic performed by the code is exact on
  these values.
* Python strings are `String`; bit strings of the characters `'0'`/`'1'`
  are `List Bool` (`true` ↔ `'1'`).
* Python lists and numpy vectors are `List ℚ`; numpy 2-D arrays are
  `List (List ℚ)` (row major, rectangular).
* Fallible code (a Python exception) is `Option`.
-/

namespace NeuroStamp

/-- Integer seed derived from a string secret in `get_scrambled_indices`
(src/utils.py): `seed = sum(ord(c) for c in seed_key)`. -/
def seedOf (s : String) : Nat :=
  (s.data.map Char.toNat).sum

/-- Model of the pseudo-random stream used by CPython's `random` module.
CPython uses the Mersenne Twister; the exact generator does not matter for
any property proved here (determinism in the seed and the Fisher–Yates
swap structure are all that is used), so the stream is modelled by a
64-bit linear congruential step. -/
def lcgNext (s : Nat) : Nat :=
  (6364136223846793005 * s + 1442695040888963407) % 2 ^ 64

/-- One Fisher–Yates swap `x[i], x[j] = x[j], x[i]` on a list. -/
def listSwap (l : List Nat) (i j : Nat) : List Nat :=
  (l.set i (l.getD j 0)).set j (l.getD i 0)

/-- The loop of CPython `random.shuffle`:
`for i in reversed(range(1, len(x))): j = randbelow(i+1); swap x[i], x[j]`.
The first argument is the loop counter `i`, the second the generator state. -/
def shuffleGo : Nat → Nat → List Nat → List Nat
  | 0, _, l => l
  | i + 1, s, l => shuffleGo i (lcgNext s) (listSwap l (i + 1) (s % (i + 2)))

/-- Model of `random.seed(seed)` followed by `random.shuffle(indices)`:
a deterministic Fisher–Yates shuffle driven by the seeded stream. -/
def pyShuffle (seed : Nat) (l : List Nat) : List Nat :=
  shuffleGo (l.length - 1) seed l

/-- `get_scrambled_indices(length, seed_key)` from src/utils.py, for the
string-secret branch used by the codec: `indices = list(range(length))`,
`seed = sum(ord(c) for c in seed_key)`, `random.seed(seed)`,
`random.shuffle(indices)`. -/
def get_scrambled_indices (length : Nat) (seed_key : String) : List Nat :=
  pyShuffle (seedOf seed_key) (List.range length)

/-- Fuel-driven worker for `natBin`; the fuel argument only serves
structural recursion and is irrelevant once it dominates the value. -/
def natBinAux : Nat → Nat → List Bool
  | 0, n => [decide (n = 1)]
  | fuel + 1, n =>
    if n < 2 then [decide (n = 1)]
    else natBinAux fuel (n / 2) ++ [decide (n % 2 = 1)]

/-- Big-endian binary digits of a natural number, as produced by Python
`bin(n)[2:]` (so `natBin 0 = [false]` and there are no leading zeros
otherwise). -/
def natBin (n : Nat) : List Bool :=
  natBinAux n n

/-- Fuel-driven worker for `natHex`. -/
def natHexAux : Nat → Nat → List Nat
  | 0, n => [n]
  | fuel + 1, n =>
    if n < 16 then [n]
    else natHexAux fuel (n / 16) ++ [n % 16]

/-- Big-endian hexadecimal digits (each in `[0,16)`) of a natural number,
as produced by Python `hex(n)[2:]`: no fixed-width zero-padding. -/
def natHex (n : Nat) : List Nat :=
  natHexAux n n

/-- Python `str.zfill` on a bit string: left-pad with `'0'` to length `k`. -/
def zfill (k : Nat) (l : List Bool) : List Bool :=
  List.replicate (k - l.length) false ++ l

/-- Value of a big-endian bit string, as computed by Python `int(s, 2)`
on a nonempty string of `'0'`/`'1'`. -/
def bitsToNat (bs : List Bool) : Nat :=
  bs.foldl (fun a b => 2 * a + (if b then 1 else 0)) 0

/-- Value of a big-endian hex-digit string, as computed by Python
`int(s, 16)` on a nonempty string of hex digits. -/
def hexValue (h : List Nat) : Nat :=
  h.foldl (fun a d => 16 * a + d) 0

/-- `text_to_binary(text)` from src/utils.py:
`"".join(format(ord(c), '08b') for c in text)`. Note `format(_, '08b')`
zero-pads to 8 bits but does not truncate code points above 255. -/
def text_to_binary (text : String) : List Bool :=
  (text.data.map (fun c => zfill 8 (natBin c.toNat))).flatten

/-- The chunking `[binary[i:i+8] for i in range(0, len(binary), 8)]` in
`binary_to_text` (src/utils.py); the trailing chunk may be short. -/
def chunk8 : List Bool → List (List Bool)
  | b1 :: b2 :: b3 :: b4 :: b5 :: b6 :: b7 :: b8 :: t =>
    [b1, b2, b3, b4, b5, b6, b7, b8] :: chunk8 t
  | [] => []
  | t => [t]

/-- `binary_to_text(binary)` from src/utils.py: keep only the full 8-bit
chunks and map each through `chr(int(chunk, 2))`. -/
def binary_to_text (binary : List Bool) : String :=
  String.mk (((chunk8 binary).filter (fun c => c.length == 8)).map
    (fun c => Char.ofNat (bitsToNat c)))

/-- `hex_to_binary(hex_str)` from src/utils.py:
`bin(int(hex_str, 16))[2:].zfill(len(hex_str) * 4)`. A hex string is
modelled as its list of digit values; `int` raises `ValueError` on the
empty string, modelled by `none`. -/
def hex_to_binary (h : List Nat) : Option (List Bool) :=
  if h.isEmpty then none
  else some (zfill (4 * h.length) (natBin (hexValue h)))

/-- `calculate_hamming_distance(hash1, hash2)` from src/utils.py: sentinel
100 on unequal (hex) lengths, else the count of differing positions of the
two binary expansions. -/
def calculate_hamming_distance (hash1 hash2 : List Nat) : Option Nat :=
  if hash1.length ≠ hash2.length then some 100
  else
    match hex_to_binary hash1, hex_to_binary hash2 with
    | some b1, some b2 => some (((b1.zip b2).filter (fun p => p.1 != p.2)).length)
    | _, _ => none

/-- The registry threshold check in `stamp_image` (src/main.py):
`distance < 10` classifies two fingerprints as the same underlying image.
On actual fingerprints (nonempty hex strings) the distance never errors. -/
def is_duplicate (hash1 hash2 : List Nat) : Bool :=
  match calculate_hamming_distance hash1 hash2 with
  | some d => d < 10
  | none => false

/-- `compute_dhash(image_array)` from src/utils.py, from the point where
the 9×8 grid of grayscale pixels exists. The preceding two steps —
`Image.fromarray(...).convert('L')` and `img.resize((9, 8), LANCZOS)` —
are PIL library calls whose output (72 pixel values, row-major) is taken
as the input here. The nested loops compare the 8 adjacent horizontal
pairs of each of the 8 rows, then the bit string is hex-encoded via
`hex(int(bits, 2))[2:]`. -/
def compute_dhash (pixels : List Nat) : List Nat :=
  let diff_hash :=
    ((List.range 8).map (fun row => (List.range 8).map (fun col =>
      decide (pixels.getD (row * 9 + col) 0 > pixels.getD (row * 9 + col + 1) 0)))).flatten
  natHex (bitsToNat diff_hash)

/-- Specification-side description of the dHash bit at index `k`
(row `k / 8`, pair `k % 8`): 1 exactly when the left pixel is strictly
brighter than the right. -/
def dhashBitSpec (pixels : List Nat) (k : Nat) : Bool :=
  decide (pixels.getD ((k / 8) * 9 + k % 8) 0 > pixels.getD ((k / 8) * 9 + k % 8 + 1) 0)

/-- Specification-side big-endian `k`-bit expansion of a value. -/
def bigEnd (k v : Nat) : List Bool :=
  (List.range k).map (fun i => v.testBit (k - 1 - i))

/-- The four bits of one hex digit, most significant first. -/
def nibble4 (d : Nat) : List Bool :=
  [d.testBit 3, d.testBit 2, d.testBit 1, d.testBit 0]

/-- Specification-side bit `i` of the `len(hex) * 4`-bit expansion of a hex
string: bit `3 - i % 4` of digit `i / 4`. -/
def hexBitSpec (h : List Nat) (i : Nat) : Bool :=
  (h.getD (i / 4) 0).testBit (3 - i % 4)

/-- Specification-side Hamming distance following the spec text: sentinel
100 when the `len(hex) * 4` expansion lengths differ, otherwise the number
of bit positions where the two expansions differ. -/
def hammingSpec (h1 h2 : List Nat) : Nat :=
  if 4 * h1.length ≠ 4 * h2.length then 100
  else ((List.range (4 * h1.length)).filter
    (fun i => hexBitSpec h1 i != hexBitSpec h2 i)).length

/-- Pair the elements of a list two by two (a trailing odd element is
dropped; the codec only uses even-dimension data). -/
def chunk2 {α : Type} : List α → List (α × α)
  | a :: b :: t => (a, b) :: chunk2 t
  | _ => []

/-- Inverse of `chunk2`: interleave a list of pairs back into a list. -/
def interleave2 {α : Type} : List (α × α) → List α
  | [] => []
  | (a, b) :: t => a :: b :: interleave2 t

/-- The 2×2 Haar butterfly. On an analysis step the input quad is
`((p00, p01), (p10, p11))` (two horizontally adjacent pixels of two
adjacent rows) and the output is `((cA, cH), (cV, cD))` with
`cA = (p00+p01+p10+p11)/2`, `cH = (p00+p01-p10-p11)/2` (detail across
rows, pywt's first detail band), `cV`, `cD` accordingly; the same map is
its own inverse, performing the synthesis step. -/
def haarQuad (q : (ℚ × ℚ) × (ℚ × ℚ)) : (ℚ × ℚ) × (ℚ × ℚ) :=
  (((q.1.1 + q.1.2 + q.2.1 + q.2.2) / 2, (q.1.1 + q.1.2 - q.2.1 - q.2.2) / 2),
   ((q.1.1 - q.1.2 + q.2.1 - q.2.2) / 2, (q.1.1 - q.1.2 - q.2.1 + q.2.2) / 2))

/-- Model of `pywt.dwt2(matrix, 'haar')` (`apply_dwt` in core.py): the
four sub-bands `(cA, (cH, cV, cD))`, each half the height and width; the
code unpacks them as `LL, (LH, HL, HH)`. The model is faithful exactly on
even-dimension, no-padding input: it is a total function, whereas
`pywt.dwt2` pads odd dimensions by boundary extension and raises on an
empty axis. Every theorem below that depends on this transform therefore
either hypothesises nonzero even (multiple-of-4) dimensions or is
evaluated at such a concrete input, and `embed_channel` guards the
empty-axis case explicitly; no conclusion is drawn from the model outside
its faithful domain. -/
def dwt2 (m : List (List ℚ)) :
    List (List ℚ) × List (List ℚ) × List (List ℚ) × List (List ℚ) :=
  let rows := (chunk2 m).map (fun rp => ((chunk2 rp.1).zip (chunk2 rp.2)).map haarQuad)
  (rows.map (fun r => r.map (fun q => q.1.1)),
   rows.map (fun r => r.map (fun q => q.1.2)),
   rows.map (fun r => r.map (fun q => q.2.1)),
   rows.map (fun r => r.map (fun q => q.2.2)))

/-- Model of `pywt.idwt2((cA, (cH, cV, cD)), 'haar')` (`inverse_dwt` in
core.py): rebuilds the two pixel rows of every coefficient row. -/
def idwt2 (cA cH cV cD : List (List ℚ)) : List (List ℚ) :=
  (((cA.zip cH).zip (cV.zip cD)).map (fun r =>
    let quads := ((r.1.1.zip r.1.2).zip (r.2.1.zip r.2.2)).map haarQuad
    [interleave2 (quads.map (fun q => q.1)),
     interleave2 (quads.map (fun q => q.2))])).flatten

/-- `num_repeats` in `embed_channel`/`extract_channel` (core.py):
`available_space // unit` with Python floor division (the space
`max_slots - 100` may be negative), clamped below by 1. -/
def num_repeats (max_slots unit : Nat) : Nat :=
  let r := Int.fdiv ((max_slots : Int) - 100) (unit : Int)
  if r < 1 then 1 else r.toNat

/-- Python string/list repetition `payload * n`. -/
def repeatList {α : Type} (l : List α) (n : Nat) : List α :=
  (List.replicate n l).flatten

/-- One bipolar update `flat[idx] += alpha` (bit 1) or `-= alpha` (bit 0). -/
def applyBit (flat : List ℚ) (idx : Nat) (b : Bool) (alpha : ℚ) : List ℚ :=
  flat.set idx (flat.getD idx 0 + if b then alpha else -alpha)

/-- The embedding loop of `embed_channel`:
`for i in range(len(full_message)): if start_pos + i >= len(scrambled_indices): break; ...`.
The counter `i` tracks how many bits have been consumed. -/
def embedLoop (perm : List Nat) (alpha : ℚ) :
    List ℚ → List Bool → Nat → List ℚ
  | flat, [], _ => flat
  | flat, b :: rest, i =>
    if 100 + i ≥ perm.length then flat
    else embedLoop perm alpha (applyBit flat (perm.getD (100 + i) 0) b alpha) rest (i + 1)

/-- The vector stage of `embed_channel` (core.py): scramble the slot
indices from the secret, compute the repetition count, and run the
bipolar embedding loop over the repeated payload with guard offset 100. -/
def embedded_vector (flat : List ℚ) (bits : List Bool) (alpha : ℚ)
    (secret : String) : List ℚ :=
  let perm := get_scrambled_indices flat.length secret
  embedLoop perm alpha flat (repeatList bits (num_repeats flat.length bits.length)) 0

/-- numpy `reshape(h, w)` of a flat vector of length `h * w`. -/
def reshape : Nat → Nat → List ℚ → List (List ℚ)
  | 0, _, _ => []
  | h + 1, w, l => l.take w :: reshape h w (l.drop w)

/-- numpy slicing `matrix[:h, :w]`. -/
def cropTo (h w : Nat) (m : List (List ℚ)) : List (List ℚ) :=
  (m.take h).map (fun r => r.take w)

/-- Row length of a rectangular matrix (numpy `shape[1]`). -/
def rowLen (m : List (List ℚ)) : Nat :=
  (m.headD []).length

/-- `embed_channel(channel_matrix, binary_watermark, alpha, secret_key)`
from core.py: two-level Haar decomposition, bipolar embedding in the
flattened level-2 first detail band `LH2`, reconstruction with the crop
dimension fix, returning the watermarked channel and the unmodified
coefficient copy. `none` models the two ways the code raises, in source
order: `pywt.dwt2` rejects a channel with an empty axis — the only way
the flattened band can be empty, since on any nonempty channel pywt pads
rather than truncates — and `available_space // len(binary_watermark)`
raises `ZeroDivisionError` on an empty payload. -/
def embed_channel (channel_matrix : List (List ℚ)) (binary_watermark : List Bool)
    (alpha : ℚ) (secret_key : String) : Option (List (List ℚ) × List ℚ) :=
  if channel_matrix.isEmpty || (channel_matrix.headD []).isEmpty then none
  else if binary_watermark.isEmpty then none
  else
    let d1 := dwt2 channel_matrix
    let d2 := dwt2 d1.1
    let LH2 := d2.2.1
    let flat_target := LH2.flatten
    let original_coeffs := flat_target
    let modFlat := embedded_vector flat_target binary_watermark alpha secret_key
    let modified_LH2 := reshape LH2.length (rowLen LH2) modFlat
    let modified_LL1 := idwt2 d2.1 modified_LH2 d2.2.2.1 d2.2.2.2
    let cropped := cropTo d1.2.1.length (rowLen d1.2.1) modified_LL1
    some (idwt2 cropped d1.2.1 d1.2.2.1 d1.2.2.2, original_coeffs)

/-- The inner voting loop of `extract_channel`: for fixed repeat `r`
(`base = 100 + r * length`), walk bit positions `i`, breaking at the end
of the permutation; the `try/except IndexError: pass` around
`flat[target] - key[target]` is modelled by skipping the accumulation
when `target` is out of bounds for either vector. The first `Nat`
argument counts the remaining positions, the second is `i`. -/
def voteInner (flat key : List ℚ) (perm : List Nat) (base : Nat) :
    Nat → Nat → List ℚ → List ℚ
  | 0, _, scores => scores
  | remaining + 1, i, scores =>
    if base + i ≥ perm.length then scores
    else
      let t := perm.getD (base + i) 0
      let scores' := if t < flat.length ∧ t < key.length then
          scores.set i (scores.getD i 0 + (flat.getD t 0 - key.getD t 0))
        else scores
      voteInner flat key perm base remaining (i + 1) scores'

/-- The outer voting loop of `extract_channel` over repeats
`r = 0, 1, ...`; the first `Nat` argument counts the remaining repeats. -/
def voteOuter (flat key : List ℚ) (perm : List Nat) (L : Nat) :
    Nat → Nat → List ℚ → List ℚ
  | 0, _, scores => scores
  | n + 1, r, scores =>
    voteOuter flat key perm L n (r + 1)
      (voteInner flat key perm (100 + r * L) L 0 scores)

/-- The vector stage of `extract_channel` (core.py): soft voting over all
repeats followed by the zero-threshold sign decision (`score > 0` gives
bit 1, anything else — ties included — gives bit 0). -/
def extract_vector (flat key : List ℚ) (L : Nat) (secret : String) : List Bool :=
  let perm := get_scrambled_indices flat.length secret
  let scores := voteOuter flat key perm L (num_repeats flat.length L) 0
    (List.replicate L 0)
  scores.map (fun s => decide (0 < s))

/-- `extract_channel(channel_matrix, key, alpha, length, secret_key)` from
core.py. `alpha` is accepted but unused, as in the source. `none` models
the `ZeroDivisionError` of `available_space // length` when `length = 0`. -/
def extract_channel (channel_matrix : List (List ℚ)) (key : List ℚ) (alpha : ℚ)
    (length : Nat) (secret_key : String) : Option (List Bool) :=
  if length = 0 then none
  else
    let d1 := dwt2 channel_matrix
    let d2 := dwt2 d1.1
    let flat_target := (d2.2.1).flatten
    some (extract_vector flat_target key length secret_key)

/-- `np.clip(x, 0, 255)` followed by `astype('uint8')`: clamp, then
truncate the (now nonnegative) float to an integer. -/
def quantize (x : ℚ) : ℚ :=
  ((Int.floor (min (max x 0) 255) : Int) : ℚ)

/-- `embed_watermark(image_array, watermark_text, alpha, username)` from
core.py, for grayscale input (all three RGB components equal): PIL maps a
gray pixel `(v, v, v)` to `YCbCr = (v, 128, 128)` and back exactly, so on
such images the pipeline reduces to: encode the text to bits, embed in
the pixel (Y) channel, clip the result to `[0, 255]` and truncate to
`uint8`, and return it with the reference coefficient list. -/
def embed_watermark (image : List (List ℚ)) (watermark_text : String)
    (alpha : ℚ) (username : String) : Option (List (List ℚ) × List ℚ) :=
  let binary_msg := text_to_binary watermark_text
  (embed_channel image binary_msg alpha username).map (fun p =>
    (p.1.map (fun row => row.map quantize), p.2))

/-- `extract_watermark(image_array, key, alpha, length, username)` from
core.py, for grayscale input (the Y channel is the pixel channel). -/
def extract_watermark (image : List (List ℚ)) (key : List ℚ) (alpha : ℚ)
    (length : Nat) (username : String) : Option (List Bool) :=
  extract_channel image key alpha length username

/-- The round trip performed by `stamp_image` + `verify_image` (main.py)
on an unmodified stamped image: embed, then extract with the returned
reference vector, the same strength and secret, and
`length = len(text) * 8`, and decode the bits back to text. -/
def pipeline_roundtrip (image : List (List ℚ)) (text : String) (alpha : ℚ)
    (username : String) : Option String :=
  (embed_watermark image text alpha username).bind (fun p =>
    (extract_watermark p.1 p.2 alpha (8 * text.length) username).map binary_to_text)

/-- Number of level-2 first-detail coefficients (`N = len(LH2.flatten())`)
of a channel matrix. -/
def lh2_slots (m : List (List ℚ)) : Nat :=
  ((dwt2 (dwt2 m).1).2.1).flatten.length

/-- An all-black grayscale test image of height 4 and width 432 (dimensions
divisible by 4, so the two-level decomposition needs no padding); its
level-2 detail band has 1 × 108 = 108 coefficients. -/
def blackImage : List (List ℚ) :=
  List.replicate 4 (List.replicate 432 0)

/-- Rectangularity of a matrix: `h` rows, each of length `w`. -/
def IsRect (m : List (List ℚ)) (h w : Nat) : Prop :=
  m.length = h ∧ ∀ r ∈ m, r.length = w

/-- The round trip claimed for the codec itself, before the uint8
quantization of `embed_watermark`: embed in the channel, then extract from
the unquantized result with the returned reference vector, the same
strength and secret and `length = len(text) * 8`, and decode. -/
def channel_roundtrip (m : List (List ℚ)) (text : String) (alpha : ℚ)
    (secret : String) : Option String :=
  (embed_channel m (text_to_binary text) alpha secret).bind (fun p =>
    (extract_channel p.1 p.2 alpha (8 * text.length) secret).map binary_to_text)

theorem listSwap_length (l : List Nat) (i j : Nat) :
    (listSwap l i j).length = l.length := by
  simp [listSwap]

theorem list_set_self (l : List Nat) (i : Nat) (h : i < l.length) :
    l.set i l[i] = l := by
  apply List.ext_getElem (by simp)
  intro n h1 h2
  rw [List.getElem_set]
  by_cases hin : i = n <;> simp [hin]

theorem listSwap_perm (l : List Nat) (i j : Nat) (hi : i < l.length)
    (hj : j < l.length) : (listSwap l i j).Perm l := by
  have hgdj : l.getD j 0 = l[j] := List.getD_eq_getElem l 0 hj
  have hgdi : l.getD i 0 = l[i] := List.getD_eq_getElem l 0 hi
  rcases eq_or_ne i j with rfl | hne
  · have heq : listSwap l i i = l := by
      simp only [listSwap, hgdi, List.set_set]
      exact list_set_self l i hi
    rw [heq]
  · rw [List.perm_iff_count]
    intro a
    have hj' : j < (l.set i (l.getD j 0)).length := by simpa using hj
    have hset1 := List.count_set (l.getD j 0) a l i hi
    have hset2 := List.count_set (l.getD i 0) a (l.set i (l.getD j 0)) j hj'
    have hval : (l.set i (l.getD j 0))[j] = l[j] := List.getElem_set_ne hne hj'
    rw [hval] at hset2
    have hcount_i : l[i] = a → 1 ≤ List.count a l := fun hba =>
      List.count_pos_iff.mpr (hba ▸ List.getElem_mem hi)
    have hcount_j : l[j] = a → 1 ≤ List.count a l := fun hba =>
      List.count_pos_iff.mpr (hba ▸ List.getElem_mem hj)
    unfold listSwap
    rw [hset2, hset1, hgdi, hgdj]
    simp only [beq_iff_eq]
    by_cases h1 : l[i] = a <;> by_cases h2 : l[j] = a
    · have := hcount_i h1
      simp only [h1, h2, if_true]
      omega
    · have := hcount_i h1
      simp only [h1, h2, if_true, if_false]
      omega
    · have := hcount_j h2
      simp only [h1, h2, if_true, if_false]
      omega
    · simp only [h1, h2, if_false]
      omega

theorem shuffleGo_perm (i : Nat) : ∀ (s : Nat) (l : List Nat), i < l.length →
    (shuffleGo i s l).Perm l := by
  induction i with
  | zero => intro s l _; exact List.Perm.refl _
  | succ i ih =>
    intro s l h
    have hlen : i < (listSwap l (i + 1) (s % (i + 2))).length := by
      rw [listSwap_length]; omega
    have hmod : s % (i + 2) < l.length := by
      have h2 : s % (i + 2) < i + 2 := Nat.mod_lt s (by omega)
      omega
    have hswap := listSwap_perm l (i + 1) (s % (i + 2)) h hmod
    exact (ih (lcgNext s) _ hlen).trans hswap

theorem get_scrambled_indices_perm (N : Nat) (s : String) :
    (get_scrambled_indices N s).Perm (List.range N) := by
  unfold get_scrambled_indices pyShuffle
  rcases Nat.eq_zero_or_pos N with rfl | hN
  · exact List.Perm.refl _
  · exact shuffleGo_perm _ _ _ (by simp; omega)

theorem get_scrambled_indices_length (N : Nat) (s : String) :
    (get_scrambled_indices N s).length = N := by
  simpa using (get_scrambled_indices_perm N s).length_eq

theorem get_scrambled_indices_nodup (N : Nat) (s : String) :
    (get_scrambled_indices N s).Nodup :=
  ((get_scrambled_indices_perm N s).symm.nodup (List.nodup_range N))

theorem get_scrambled_indices_mem_lt (N : Nat) (s : String) :
    ∀ x ∈ get_scrambled_indices N s, x < N := by
  intro x hx
  have := (get_scrambled_indices_perm N s).mem_iff.mp hx
  simpa using this

theorem get_scrambled_indices_getD_lt (N : Nat) (s : String) (i : Nat)
    (h : i < N) : (get_scrambled_indices N s).getD i 0 < N := by
  apply get_scrambled_indices_mem_lt N s
  have hi : i < (get_scrambled_indices N s).length := by
    rwa [get_scrambled_indices_length]
  rw [List.getD_eq_getElem _ _ hi]
  exact List.getElem_mem hi

theorem get_scrambled_indices_getD_inj (N : Nat) (s : String) {i j : Nat}
    (hi : i < N) (hj : j < N) (hne : i ≠ j) :
    (get_scrambled_indices N s).getD i 0 ≠ (get_scrambled_indices N s).getD j 0 := by
  have hlen := get_scrambled_indices_length N s
  have hi' : i < (get_scrambled_indices N s).length := by omega
  have hj' : j < (get_scrambled_indices N s).length := by omega
  rw [List.getD_eq_getElem _ _ hi', List.getD_eq_getElem _ _ hj']
  intro heq
  exact hne ((List.Nodup.getElem_inj_iff (get_scrambled_indices_nodup N s)).mp heq)

theorem natBinAux_congr : ∀ (f1 f2 n : Nat), n ≤ f1 → n ≤ f2 →
    natBinAux f1 n = natBinAux f2 n := by
  intro f1
  induction f1 with
  | zero =>
    intro f2 n h1 _
    interval_cases n
    cases f2 with
    | zero => rfl
    | succ f2 => simp [natBinAux]
  | succ f1 ih =>
    intro f2 n h1 h2
    cases f2 with
    | zero =>
      interval_cases n
      simp [natBinAux]
    | succ f2 =>
      simp only [natBinAux]
      by_cases hn : n < 2
      · simp [hn]
      · have hdiv : n / 2 < n := Nat.div_lt_self (by omega) (by omega)
        have := ih f2 (n / 2) (by omega) (by omega)
        simp [hn, this]

theorem natBin_eq (n : Nat) : natBin n =
    if n < 2 then [decide (n = 1)]
    else natBin (n / 2) ++ [decide (n % 2 = 1)] := by
  by_cases hn : n < 2
  · unfold natBin
    interval_cases n <;> simp [natBinAux]
  · have hdiv : n / 2 < n := Nat.div_lt_self (by omega) (by omega)
    unfold natBin
    cases n with
    | zero => omega
    | succ m =>
      simp only [natBinAux, hn, if_false]
      rw [natBinAux_congr m ((m + 1) / 2) ((m + 1) / 2) (by omega) le_rfl]

theorem natHexAux_congr : ∀ (f1 f2 n : Nat), n ≤ f1 → n ≤ f2 →
    natHexAux f1 n = natHexAux f2 n := by
  intro f1
  induction f1 with
  | zero =>
    intro f2 n h1 _
    interval_cases n
    cases f2 with
    | zero => rfl
    | succ f2 => simp [natHexAux]
  | succ f1 ih =>
    intro f2 n h1 h2
    cases f2 with
    | zero =>
      interval_cases n
      simp [natHexAux]
    | succ f2 =>
      simp only [natHexAux]
      by_cases hn : n < 16
      · simp [hn]
      · have hdiv : n / 16 < n := Nat.div_lt_self (by omega) (by omega)
        have := ih f2 (n / 16) (by omega) (by omega)
        simp [hn, this]

theorem natHex_eq (n : Nat) : natHex n =
    if n < 16 then [n]
    else natHex (n / 16) ++ [n % 16] := by
  by_cases hn : n < 16
  · unfold natHex
    cases n with
    | zero => simp [natHexAux]
    | succ m => simp [natHexAux, hn]
  · have hdiv : n / 16 < n := Nat.div_lt_self (by omega) (by omega)
    unfold natHex
    cases n with
    | zero => omega
    | succ m =>
      simp only [natHexAux, hn, if_false]
      rw [natHexAux_congr m ((m + 1) / 16) ((m + 1) / 16) (by omega) le_rfl]

theorem bigEnd_length (k v : Nat) : (bigEnd k v).length = k := by
  simp [bigEnd]

theorem bigEnd_zero_val (k : Nat) : bigEnd k 0 = List.replicate k false := by
  simp [bigEnd, Nat.zero_testBit]

theorem testBit_zero_lt_two (v : Nat) (h : v < 2) :
    v.testBit 0 = decide (v = 1) := by
  interval_cases v <;> decide

theorem bigEnd_succ (k v : Nat) :
    bigEnd (k + 1) v = bigEnd k (v / 2) ++ [v.testBit 0] := by
  unfold bigEnd
  rw [List.range_succ, List.map_append]
  congr 1
  · apply List.map_congr_left
    intro i hi
    have hik : i < k := List.mem_range.mp hi
    have : k + 1 - 1 - i = (k - 1 - i) + 1 := by omega
    rw [this, Nat.testBit_succ]
  · simp

theorem zfill_append_one (k : Nat) (l : List Bool) (b : Bool) :
    zfill (k + 1) (l ++ [b]) = zfill k l ++ [b] := by
  simp only [zfill, List.length_append, List.length_cons, List.length_nil]
  rw [show k + 1 - (l.length + (0 + 1)) = k - l.length by omega]
  simp [List.append_assoc]

theorem zfill_natBin (k : Nat) : ∀ v : Nat, 1 ≤ k → v < 2 ^ k →
    zfill k (natBin v) = bigEnd k v := by
  induction k with
  | zero => omega
  | succ k ih =>
    intro v _ hv
    by_cases hsmall : v < 2
    · rw [natBin_eq, if_pos hsmall]
      rcases Nat.eq_zero_or_pos k with rfl | hk
      · simp [zfill, bigEnd, testBit_zero_lt_two v hsmall]
      · rw [bigEnd_succ]
        have hv2 : v / 2 = 0 := by omega
        rw [hv2, bigEnd_zero_val, testBit_zero_lt_two v hsmall]
        simp [zfill]
    · rw [natBin_eq, if_neg hsmall]
      have hk : 1 ≤ k := by
        by_contra hk0
        have : k = 0 := by omega
        subst this
        omega
      have hv2 : v / 2 < 2 ^ k := by
        rw [Nat.div_lt_iff_lt_mul (by omega)]
        rw [pow_succ] at hv
        omega
      rw [zfill_append_one, ih (v / 2) hk hv2, bigEnd_succ]
      congr 1
      rw [Nat.testBit_to_div_mod]
      simp

theorem bitsToNat_append_one (l : List Bool) (b : Bool) :
    bitsToNat (l ++ [b]) = 2 * bitsToNat l + (if b then 1 else 0) := by
  simp [bitsToNat, List.foldl_append]

theorem bitsToNat_bigEnd (k : Nat) : ∀ v : Nat, v < 2 ^ k →
    bitsToNat (bigEnd k v) = v := by
  induction k with
  | zero =>
    intro v hv
    interval_cases v
    rfl
  | succ k ih =>
    intro v hv
    have hv2 : v / 2 < 2 ^ k := by
      rw [Nat.div_lt_iff_lt_mul (by omega)]
      rw [pow_succ] at hv
      omega
    rw [bigEnd_succ, bitsToNat_append_one, ih (v / 2) hv2]
    rw [Nat.testBit_to_div_mod]
    simp only [Nat.pow_zero, Nat.div_one]
    by_cases h2 : v % 2 = 1 <;> simp [h2] <;> omega

theorem bigEnd_getElem (k v i : Nat) (hi : i < (bigEnd k v).length) :
    (bigEnd k v)[i] = v.testBit (k - 1 - i) := by
  unfold bigEnd
  rw [List.getElem_map, List.getElem_range]

theorem bigEnd_split (k j a b : Nat) (hb : b < 2 ^ j) :
    bigEnd (k + j) (a * 2 ^ j + b) = bigEnd k a ++ bigEnd j b := by
  apply List.ext_getElem (by simp [bigEnd_length])
  intro i hi hi2
  have hikj : i < k + j := by rwa [bigEnd_length] at hi
  rw [bigEnd_getElem _ _ _ hi]
  by_cases hik : i < k
  · rw [List.getElem_append_left (by rw [bigEnd_length]; exact hik)]
    rw [bigEnd_getElem _ _ _ (by rw [bigEnd_length]; exact hik)]
    rw [Nat.mul_comm a, Nat.testBit_mul_pow_two_add a hb]
    rw [if_neg (by omega)]
    congr 1
    omega
  · rw [List.getElem_append_right (by rw [bigEnd_length]; omega)]
    rw [bigEnd_getElem _ _ _ (by simp [bigEnd_length]; omega)]
    rw [bigEnd_length]
    rw [Nat.mul_comm a, Nat.testBit_mul_pow_two_add a hb]
    rw [if_pos (by omega)]
    congr 1
    omega

theorem hexValue_foldl (t : List Nat) : ∀ a : Nat,
    List.foldl (fun a d => 16 * a + d) a t = a * 16 ^ t.length + hexValue t := by
  induction t with
  | nil => intro a; simp [hexValue]
  | cons d t ih =>
    intro a
    simp only [List.foldl_cons, hexValue]
    rw [ih (16 * a + d), ih (16 * 0 + d)]
    simp only [List.length_cons]
    ring

theorem hexValue_cons (d : Nat) (t : List Nat) :
    hexValue (d :: t) = d * 16 ^ t.length + hexValue t := by
  simp only [hexValue, List.foldl_cons]
  simpa using hexValue_foldl t d

theorem hexValue_lt (h : List Nat) (hv : ∀ d ∈ h, d < 16) :
    hexValue h < 16 ^ h.length := by
  induction h with
  | nil => simp [hexValue]
  | cons d t ih =>
    have hd : d < 16 := hv d (by simp)
    have ht := ih (fun x hx => hv x (by simp [hx]))
    rw [hexValue_cons]
    simp only [List.length_cons]
    calc d * 16 ^ t.length + hexValue t
        < d * 16 ^ t.length + 16 ^ t.length := by omega
      _ = (d + 1) * 16 ^ t.length := by ring
      _ ≤ 16 * 16 ^ t.length := Nat.mul_le_mul_right _ (by omega)
      _ = 16 ^ (t.length + 1) := by rw [pow_succ]; ring

theorem sixteen_pow (n : Nat) : (16 : Nat) ^ n = 2 ^ (4 * n) := by
  rw [show (16 : Nat) = 2 ^ 4 from rfl, ← pow_mul]

theorem bigEnd_four (d : Nat) : bigEnd 4 d = nibble4 d := rfl

theorem bigEnd_hexValue : ∀ h : List Nat, (∀ d ∈ h, d < 16) →
    bigEnd (4 * h.length) (hexValue h) = (h.map nibble4).flatten := by
  intro h
  induction h with
  | nil => intro _; rfl
  | cons d t ih =>
    intro hv
    have ht : hexValue t < 2 ^ (4 * t.length) := by
      rw [← sixteen_pow]
      exact hexValue_lt t (fun x hx => hv x (by simp [hx]))
    rw [hexValue_cons, show 4 * (d :: t).length = 4 + 4 * t.length by simp; ring]
    rw [show (16 : Nat) ^ t.length = 2 ^ (4 * t.length) from sixteen_pow _]
    rw [bigEnd_split 4 (4 * t.length) d (hexValue t) ht]
    rw [bigEnd_four, ih (fun x hx => hv x (by simp [hx]))]
    simp

theorem hexExpand (h : List Nat) (hv : ∀ d ∈ h, d < 16) (hne : h ≠ []) :
    zfill (4 * h.length) (natBin (hexValue h)) = (h.map nibble4).flatten := by
  have hlt : hexValue h < 2 ^ (4 * h.length) := by
    rw [← sixteen_pow]
    exact hexValue_lt h hv
  have hk : 1 ≤ 4 * h.length := by
    cases h with
    | nil => exact absurd rfl hne
    | cons d t => simp only [List.length_cons]; omega
  rw [zfill_natBin (4 * h.length) (hexValue h) hk hlt]
  exact bigEnd_hexValue h hv

theorem nibble_flatten_getD (h : List Nat) : ∀ i : Nat, i < 4 * h.length →
    ((h.map nibble4).flatten).getD i false = hexBitSpec h i := by
  induction h with
  | nil => intro i hi; simp at hi
  | cons d t ih =>
    intro i hi
    simp only [List.map_cons, List.flatten_cons]
    by_cases h4 : i < 4
    · have hspec : hexBitSpec (d :: t) i = d.testBit (3 - i % 4) := by
        unfold hexBitSpec
        rw [show i / 4 = 0 by omega]
        rfl
      rw [hspec]
      interval_cases i <;> rfl
    · rw [List.getD_append_right _ _ _ _ (by
        show (nibble4 d).length ≤ i
        simp only [nibble4, List.length_cons, List.length_nil]
        omega)]
      have hlen : (nibble4 d).length = 4 := rfl
      rw [hlen]
      rw [ih (i - 4) (by simp only [List.length_cons] at hi; omega)]
      unfold hexBitSpec
      rw [show (i - 4) / 4 = i / 4 - 1 by omega, show (i - 4) % 4 = i % 4 by omega]
      rw [show (d :: t).getD (i / 4) 0 = t.getD (i / 4 - 1) 0 by
        rcases Nat.exists_eq_add_of_le (show 1 ≤ i / 4 by omega) with ⟨m, hm⟩
        rw [hm, Nat.add_comm 1 m, List.getD_cons_succ]
        simp]

theorem countDiff_eq_range (b1 : List Bool) : ∀ b2 : List Bool,
    b1.length = b2.length →
    ((b1.zip b2).filter (fun p => p.1 != p.2)).length =
    ((List.range b1.length).filter
      (fun i => b1.getD i false != b2.getD i false)).length := by
  induction b1 with
  | nil => intro b2 _; simp
  | cons x t1 ih =>
    intro b2 hlen
    cases b2 with
    | nil => simp at hlen
    | cons y t2 =>
      simp only [List.length_cons] at hlen
      simp only [List.zip_cons_cons, List.length_cons]
      rw [List.range_succ_eq_map]
      rw [List.filter_cons, List.filter_cons]
      have hmap : ((List.range t1.length).map Nat.succ).filter
          (fun i => (x :: t1).getD i false != (y :: t2).getD i false)
          = ((List.range t1.length).filter
              (fun i => t1.getD i false != t2.getD i false)).map Nat.succ := by
        rw [List.filter_map]
        congr 1
      by_cases hxy : (x != y) = true
      · simp only [hxy, List.getD_cons_zero, if_true]
        simp only [List.length_cons, hmap, List.length_map]
        rw [ih t2 (by omega)]
      · simp only [Bool.not_eq_true] at hxy
        simp only [hxy, List.getD_cons_zero, Bool.false_eq_true, if_false]
        simp only [hmap, List.length_map]
        rw [ih t2 (by omega)]

theorem chunk8_append8 (l rest : List Bool) (h : l.length = 8) :
    chunk8 (l ++ rest) = l :: chunk8 rest := by
  rcases l with _ | ⟨b1, l⟩; · simp at h
  rcases l with _ | ⟨b2, l⟩; · simp at h
  rcases l with _ | ⟨b3, l⟩; · simp at h
  rcases l with _ | ⟨b4, l⟩; · simp at h
  rcases l with _ | ⟨b5, l⟩; · simp at h
  rcases l with _ | ⟨b6, l⟩; · simp at h
  rcases l with _ | ⟨b7, l⟩; · simp at h
  rcases l with _ | ⟨b8, l⟩; · simp at h
  rcases l with _ | ⟨b9, l⟩
  · rfl
  · simp at h

theorem byte_bits_length (v : Nat) (hv : v ≤ 255) :
    (zfill 8 (natBin v)).length = 8 := by
  rw [zfill_natBin 8 v (by omega) (by omega), bigEnd_length]

theorem byte_bits_value (v : Nat) (hv : v ≤ 255) :
    bitsToNat (zfill 8 (natBin v)) = v := by
  rw [zfill_natBin 8 v (by omega) (by omega)]
  exact bitsToNat_bigEnd 8 v (by omega)

theorem codec_chars_roundtrip : ∀ cs : List Char, (∀ c ∈ cs, c.toNat ≤ 255) →
    ((chunk8 ((cs.map (fun c => zfill 8 (natBin c.toNat))).flatten)).filter
      (fun c => c.length == 8)).map (fun c => Char.ofNat (bitsToNat c)) = cs := by
  intro cs
  induction cs with
  | nil => intro _; rfl
  | cons c cs ih =>
    intro hv
    have hc : c.toNat ≤ 255 := hv c (by simp)
    simp only [List.map_cons, List.flatten_cons]
    rw [chunk8_append8 _ _ (byte_bits_length c.toNat hc)]
    rw [List.filter_cons]
    rw [if_pos (by simp [byte_bits_length c.toNat hc])]
    simp only [List.map_cons]
    rw [byte_bits_value c.toNat hc, Char.ofNat_toNat]
    rw [ih (fun x hx => hv x (by simp [hx]))]

/-- C10: the payload text codec round-trips exactly over texts whose
characters all have code points at most 255 (8 bits each, MSB first),
while a character above 255 makes `text_to_binary` emit more than 8 bits
(`format(ord(c), '08b')` pads but never truncates) and breaks the
round-trip equality. -/
theorem codec_roundtrip_8bit :
    (∀ t : String, (∀ c ∈ t.data, c.toNat ≤ 255) →
      binary_to_text (text_to_binary t) = t) ∧
    8 < (text_to_binary (String.mk [Char.ofNat 256])).length ∧
    binary_to_text (text_to_binary (String.mk [Char.ofNat 256]))
      ≠ String.mk [Char.ofNat 256] := by
  refine ⟨?_, by decide, by decide⟩
  intro t hv
  obtain ⟨cs⟩ := t
  unfold text_to_binary binary_to_text
  simp only [String.data] at hv ⊢
  rw [codec_chars_roundtrip cs hv]

/-- Witness for the hypothesis of the round-trip half of C10, at the
concrete text `"Ok"`. -/
theorem codec_roundtrip_8bit_witness :
    (∀ c ∈ ("Ok" : String).data, c.toNat ≤ 255) ∧
    binary_to_text (text_to_binary "Ok") = "Ok" :=
  ⟨by decide, codec_roundtrip_8bit.1 "Ok" (by decide)⟩

/-- C5: the keyed permutation generator is a deterministic function of the
additive seed (equal code-point sums give byte-identical outputs), its
output is a permutation of `[0, N)`, and distinct anagram-equivalent
secrets collide. -/
theorem scrambled_determinism_and_collision (N : Nat) (s1 s2 : String) :
    (seedOf s1 = seedOf s2 →
      get_scrambled_indices N s1 = get_scrambled_indices N s2) ∧
    (get_scrambled_indices N s1).Perm (List.range N) ∧
    ∃ a b : String, a ≠ b ∧ get_scrambled_indices N a = get_scrambled_indices N b := by
  refine ⟨?_, get_scrambled_indices_perm N s1, "ab", "ba", by decide, ?_⟩
  · intro h
    unfold get_scrambled_indices
    rw [h]
  · unfold get_scrambled_indices
    rfl

/-- Witness for C5 at `N = 7` with the anagram secrets `"abc"`, `"cba"`. -/
theorem scrambled_determinism_witness :
    seedOf "abc" = seedOf "cba" ∧
    get_scrambled_indices 7 "abc" = get_scrambled_indices 7 "cba" :=
  ⟨by decide, (scrambled_determinism_and_collision 7 "abc" "cba").1 (by decide)⟩

theorem nibble_flatten_length (h : List Nat) :
    ((h.map nibble4).flatten).length = 4 * h.length := by
  induction h with
  | nil => rfl
  | cons d t ih =>
    simp only [List.map_cons, List.flatten_cons, List.length_append, ih,
      List.length_cons]
    simp [nibble4]
    ring

theorem countDiff_symm : ∀ b1 b2 : List Bool,
    ((b1.zip b2).filter (fun p => p.1 != p.2)).length =
    ((b2.zip b1).filter (fun p => p.1 != p.2)).length := by
  intro b1
  induction b1 with
  | nil => intro b2; cases b2 <;> rfl
  | cons x t1 ih =>
    intro b2
    cases b2 with
    | nil => rfl
    | cons y t2 =>
      simp only [List.zip_cons_cons, List.filter_cons]
      have hxy : (x != y) = (y != x) := by cases x <;> cases y <;> rfl
      rw [hxy]
      cases hyx : y != x <;> simp [ih t2]

theorem countDiff_self : ∀ b : List Bool,
    ((b.zip b).filter (fun p => p.1 != p.2)).length = 0 := by
  intro b
  induction b with
  | nil => rfl
  | cons x t ih =>
    simp only [List.zip_cons_cons, List.filter_cons]
    simp [ih]

/-- C9 counterexample: on the empty hex string the code raises
(`int("", 16)` is a `ValueError`), so `calculate_hamming_distance("", "")`
is an error rather than 0 — reflexivity fails for the empty string. -/
theorem hamming_empty_refl_cex :
    calculate_hamming_distance [] [] = none ∧
    calculate_hamming_distance [] [] ≠ some 0 := by
  constructor
  · rfl
  · decide

/-- C9 amended: the distance is symmetric for all hex strings, and
reflexively zero for every nonempty hex string (hence for every actual
fingerprint); for the empty string the code raises instead. -/
theorem hamming_symm_refl :
    (∀ h1 h2 : List Nat, calculate_hamming_distance h1 h2
      = calculate_hamming_distance h2 h1) ∧
    (∀ h : List Nat, h ≠ [] → calculate_hamming_distance h h = some 0) := by
  constructor
  · intro h1 h2
    by_cases hlen : h1.length = h2.length
    · by_cases he1 : h1 = []
      · subst he1
        have he2 : h2 = [] := List.eq_nil_of_length_eq_zero (by simpa using hlen.symm)
        subst he2
        rfl
      · have he2 : h2 ≠ [] := by
          intro h
          subst h
          exact he1 (List.eq_nil_of_length_eq_zero (by simpa using hlen))
        simp only [calculate_hamming_distance, hex_to_binary, hlen]
        simp only [ne_eq, not_true_eq_false, if_false]
        rw [if_neg (by simpa using he1), if_neg (by simpa using he2)]
        exact congrArg some (countDiff_symm _ _)
    · unfold calculate_hamming_distance
      rw [if_pos (by omega), if_pos (by omega)]
  · intro h hne
    simp only [calculate_hamming_distance, hex_to_binary]
    simp only [ne_eq, not_true_eq_false, if_false]
    rw [if_neg (by simpa using hne)]
    exact congrArg some (countDiff_self _)

/-- Witness for the reflexivity half of C9 at the concrete fingerprint
hex string `c4` (digits 12, 4). -/
theorem hamming_symm_refl_witness :
    ([12, 4] : List Nat) ≠ [] ∧
    calculate_hamming_distance [12, 4] [12, 4] = some 0 :=
  ⟨by decide, hamming_symm_refl.2 [12, 4] (by decide)⟩

theorem dhash_bits_spec (pixels : List Nat) :
    ((List.range 8).map (fun row => (List.range 8).map (fun col =>
      decide (pixels.getD (row * 9 + col) 0 > pixels.getD (row * 9 + col + 1) 0)))).flatten
    = (List.range 64).map (dhashBitSpec pixels) := rfl

/-- C7: the fingerprint emits, row-major over 8 rows and 8 adjacent
horizontal pixel pairs, bit 1 exactly when the left pixel is strictly
brighter than the right (64 bits total), hex-encoded without fixed-width
zero-padding — a leading-zero bit string yields a hex string shorter than
16 characters (the all-equal grid encodes to the single digit `0`). -/
theorem dhash_contract (pixels : List Nat) :
    compute_dhash pixels
      = natHex (bitsToNat ((List.range 64).map (dhashBitSpec pixels))) ∧
    compute_dhash (List.replicate 72 0) = [0] ∧
    (compute_dhash (List.replicate 72 0)).length < 16 :=
  ⟨congrArg (fun b => natHex (bitsToNat b)) (dhash_bits_spec pixels),
    by decide, by decide⟩

/-- C6: the fingerprint distance returns the sentinel 100 exactly when the
`len(hex) * 4`-bit expansion lengths differ (equivalently, the hex lengths
differ), otherwise the count of differing bit positions of the two
zero-filled expansions; and the registry classifies two fingerprints as
the same underlying image exactly when the distance is strictly below 10. -/
theorem hamming_distance_contract (h1 h2 : List Nat)
    (hv1 : ∀ d ∈ h1, d < 16) (hv2 : ∀ d ∈ h2, d < 16)
    (hn1 : h1 ≠ []) (hn2 : h2 ≠ []) :
    calculate_hamming_distance h1 h2 = some (hammingSpec h1 h2) ∧
    (is_duplicate h1 h2 = true ↔ hammingSpec h1 h2 < 10) := by
  have hdist : calculate_hamming_distance h1 h2 = some (hammingSpec h1 h2) := by
    by_cases hlen : h1.length = h2.length
    · have hb1 : hex_to_binary h1 = some ((h1.map nibble4).flatten) := by
        unfold hex_to_binary
        rw [if_neg (by simpa using hn1), hexExpand h1 hv1 hn1]
      have hb2 : hex_to_binary h2 = some ((h2.map nibble4).flatten) := by
        unfold hex_to_binary
        rw [if_neg (by simpa using hn2), hexExpand h2 hv2 hn2]
      unfold calculate_hamming_distance
      rw [if_neg (by omega), hb1, hb2]
      refine congrArg some ?_
      have hlen1 : ((h1.map nibble4).flatten).length = 4 * h1.length :=
        nibble_flatten_length h1
      have hlen2 : ((h2.map nibble4).flatten).length = 4 * h2.length :=
        nibble_flatten_length h2
      rw [countDiff_eq_range _ _ (by rw [hlen1, hlen2, hlen])]
      unfold hammingSpec
      rw [if_neg (by omega), hlen1]
      congr 1
      apply List.filter_congr
      intro i hi
      have hi1 : i < 4 * h1.length := by simpa using List.mem_range.mp hi
      have hi2 : i < 4 * h2.length := by omega
      rw [nibble_flatten_getD h1 i hi1, nibble_flatten_getD h2 i hi2]
    · unfold calculate_hamming_distance hammingSpec
      rw [if_pos (by omega), if_pos (by omega)]
  refine ⟨hdist, ?_⟩
  unfold is_duplicate
  rw [hdist]
  simp

/-- Witness for C6 at the concrete fingerprints `af` and `8f`. -/
theorem hamming_distance_contract_witness :
    (∀ d ∈ ([10, 15] : List Nat), d < 16) ∧
    (∀ d ∈ ([8, 15] : List Nat), d < 16) ∧
    ([10, 15] : List Nat) ≠ [] ∧ ([8, 15] : List Nat) ≠ [] ∧
    (calculate_hamming_distance [10, 15] [8, 15] = some (hammingSpec [10, 15] [8, 15]) ∧
      (is_duplicate [10, 15] [8, 15] = true ↔ hammingSpec [10, 15] [8, 15] < 10)) :=
  ⟨by decide, by decide, by decide, by decide,
    hamming_distance_contract [10, 15] [8, 15] (by decide) (by decide)
      (by decide) (by decide)⟩

/-- C2 counterexample: on the all-black image with strength `alpha = 1`
the claim's capacity hypothesis holds (8 bits fit into 108 - 100 slots),
yet the full pipeline decodes the NUL character instead of `"A"`: the
`np.clip(..., 0, 255).astype('uint8')` quantization in `embed_watermark`
erases every embedded offset (each pixel moves by ±1/4, clipped at 0 or
truncated), so every vote score is 0 and every bit decodes to 0. -/
theorem roundtrip_quantization_cex :
    lh2_slots blackImage = 108 ∧
    100 + 8 * ("A" : String).length ≤ lh2_slots blackImage ∧
    pipeline_roundtrip blackImage "A" 1 "default" = some (String.mk [Char.ofNat 0]) ∧
    String.mk [Char.ofNat 0] ≠ "A" := by
  refine ⟨by decide, by decide, by decide, by decide⟩

/-- C1 counterexample: `embed_channel` raises no capacity error. On a 4×4
all-zero channel (N = 1 coefficient, so any nonempty payload exceeds
`N - 100`) it returns a result, and that result is byte-identical whether
the payload bit is 1 or 0 — the overflowing payload is silently dropped
instead of triggering any error. -/
theorem embed_no_capacity_error_cex :
    (embed_channel (List.replicate 4 (List.replicate 4 0)) [true] 30 "default").isSome = true ∧
    embed_channel (List.replicate 4 (List.replicate 4 0)) [true] 30 "default"
      = embed_channel (List.replicate 4 (List.replicate 4 0)) [false] 30 "default" := by
  refine ⟨by decide, by decide⟩

theorem getD_set_self_q (l : List ℚ) (i : Nat) (a : ℚ) (h : i < l.length) :
    (l.set i a).getD i 0 = a := by
  have h2 : i < (l.set i a).length := by simpa using h
  rw [List.getD_eq_getElem _ _ h2, List.getElem_set]
  simp

theorem getD_set_ne_q (l : List ℚ) (i j : Nat) (a : ℚ) (h : i ≠ j) :
    (l.set i a).getD j 0 = l.getD j 0 := by
  by_cases hj : j < l.length
  · have h2 : j < (l.set i a).length := by simpa using hj
    rw [List.getD_eq_getElem _ _ h2, List.getD_eq_getElem _ _ hj]
    exact List.getElem_set_ne h h2
  · rw [List.getD_eq_default _ _ (by simpa using Nat.le_of_not_lt hj),
      List.getD_eq_default _ _ (Nat.le_of_not_lt hj)]

theorem nodup_getD_ne (perm : List Nat) (hnd : perm.Nodup) {i j : Nat}
    (hi : i < perm.length) (hj : j < perm.length) (hij : i ≠ j) :
    perm.getD i 0 ≠ perm.getD j 0 := by
  rw [List.getD_eq_getElem _ _ hi, List.getD_eq_getElem _ _ hj]
  intro heq
  exact hij ((List.Nodup.getElem_inj_iff hnd).mp heq)

theorem applyBit_length (flat : List ℚ) (idx : Nat) (b : Bool) (a : ℚ) :
    (applyBit flat idx b a).length = flat.length := by
  simp [applyBit]

theorem embedLoop_length (perm : List Nat) (a : ℚ) :
    ∀ (msg : List Bool) (flat : List ℚ) (i : Nat),
    (embedLoop perm a flat msg i).length = flat.length := by
  intro msg
  induction msg with
  | nil => intro flat i; rfl
  | cons b rest ih =>
    intro flat i
    show (if 100 + i ≥ perm.length then flat
      else embedLoop perm a (applyBit flat (perm.getD (100 + i) 0) b a) rest (i + 1)).length
      = flat.length
    by_cases hbr : 100 + i ≥ perm.length
    · rw [if_pos hbr]
    · rw [if_neg hbr, ih, applyBit_length]

theorem embedLoop_miss (perm : List Nat) (a : ℚ) :
    ∀ (msg : List Bool) (flat : List ℚ) (i0 j : Nat),
    (∀ t, t < msg.length → 100 + i0 + t < perm.length →
      perm.getD (100 + i0 + t) 0 ≠ j) →
    (embedLoop perm a flat msg i0).getD j 0 = flat.getD j 0 := by
  intro msg
  induction msg with
  | nil => intro flat i0 j _; rfl
  | cons b rest ih =>
    intro flat i0 j hmiss
    show (if 100 + i0 ≥ perm.length then flat
      else embedLoop perm a (applyBit flat (perm.getD (100 + i0) 0) b a) rest (i0 + 1)).getD j 0
      = flat.getD j 0
    by_cases hbr : 100 + i0 ≥ perm.length
    · rw [if_pos hbr]
    · rw [if_neg hbr]
      rw [ih _ (i0 + 1) j (fun t ht hlt => by
        have := hmiss (t + 1) (by simpa using Nat.succ_lt_succ ht)
          (by omega)
        rwa [show 100 + i0 + (t + 1) = 100 + (i0 + 1) + t by omega] at this)]
      unfold applyBit
      exact getD_set_ne_q _ _ _ _
        (hmiss 0 (by simp) (by omega) ∘ fun h => by simpa using h)

theorem embedLoop_hit (perm : List Nat) (a : ℚ) (hnd : perm.Nodup) :
    ∀ (t : Nat) (msg : List Bool) (flat : List ℚ) (i0 : Nat),
    perm.length = flat.length →
    (∀ x ∈ perm, x < flat.length) →
    t < msg.length → 100 + i0 + t < perm.length →
    (embedLoop perm a flat msg i0).getD (perm.getD (100 + i0 + t) 0) 0
      = flat.getD (perm.getD (100 + i0 + t) 0) 0
        + (if msg.getD t false then a else -a) := by
  intro t
  induction t with
  | zero =>
    intro msg flat i0 hlen hvals ht hin
    cases msg with
    | nil => simp at ht
    | cons b rest =>
      show (if 100 + i0 ≥ perm.length then flat
        else embedLoop perm a (applyBit flat (perm.getD (100 + i0) 0) b a) rest
          (i0 + 1)).getD (perm.getD (100 + i0 + 0) 0) 0 = _
      rw [if_neg (by omega)]
      have hidx : perm.getD (100 + i0) 0 < flat.length := by
        apply hvals
        have hb : 100 + i0 < perm.length := by omega
        rw [List.getD_eq_getElem _ _ hb]
        exact List.getElem_mem hb
      rw [embedLoop_miss perm a rest _ (i0 + 1) _ (fun u hu hlt => by
        apply nodup_getD_ne perm hnd (by omega) (by omega)
        omega)]
      show (applyBit flat (perm.getD (100 + i0) 0) b a).getD (perm.getD (100 + i0 + 0) 0) 0 = _
      rw [show 100 + i0 + 0 = 100 + i0 by omega]
      unfold applyBit
      rw [getD_set_self_q _ _ _ hidx]
      simp
  | succ t ih =>
    intro msg flat i0 hlen hvals ht hin
    cases msg with
    | nil => simp at ht
    | cons b rest =>
      show (if 100 + i0 ≥ perm.length then flat
        else embedLoop perm a (applyBit flat (perm.getD (100 + i0) 0) b a) rest
          (i0 + 1)).getD (perm.getD (100 + i0 + (t + 1)) 0) 0 = _
      rw [if_neg (by omega)]
      have hstep := ih rest (applyBit flat (perm.getD (100 + i0) 0) b a) (i0 + 1)
        (by rw [applyBit_length]; exact hlen)
        (fun x hx => by rw [applyBit_length]; exact hvals x hx)
        (by simpa using Nat.lt_of_succ_lt_succ (by simpa using ht))
        (by omega)
      rw [show 100 + i0 + (t + 1) = 100 + (i0 + 1) + t by omega]
      rw [hstep]
      have hne : perm.getD (100 + i0) 0 ≠ perm.getD (100 + (i0 + 1) + t) 0 :=
        nodup_getD_ne perm hnd (by omega) (by omega) (by omega)
      unfold applyBit
      rw [getD_set_ne_q _ _ _ _ hne]
      simp

theorem num_repeats_pos (N L : Nat) : 1 ≤ num_repeats N L := by
  unfold num_repeats
  by_cases h : Int.fdiv ((N : Int) - 100) (L : Int) < 1
  · rw [if_pos h]
  · rw [if_neg h]
    omega

theorem num_repeats_cast (N L : Nat) :
    (num_repeats N L : Int) = max 1 (Int.fdiv ((N : Int) - 100) (L : Int)) := by
  unfold num_repeats
  by_cases h : Int.fdiv ((N : Int) - 100) (L : Int) < 1
  · rw [if_pos h]
    omega
  · rw [if_neg h]
    have h0 : (0 : Int) ≤ Int.fdiv ((N : Int) - 100) (L : Int) := by omega
    rw [Int.toNat_of_nonneg h0]
    omega

theorem num_repeats_of_le (N L : Nat) (hL : 1 ≤ L) (hcap : 100 + L ≤ N) :
    num_repeats N L = (N - 100) / L := by
  unfold num_repeats
  have hcast : ((N : Int) - 100) = ((N - 100 : Nat) : Int) := by omega
  rw [hcast, Int.fdiv_eq_ediv _ (by omega), ← Int.ofNat_ediv]
  have hdiv : 1 ≤ (N - 100) / L := by
    rw [Nat.le_div_iff_mul_le (by omega)]
    omega
  rw [if_neg (by omega)]
  rw [Int.toNat_ofNat]

theorem num_repeats_overflow (N L : Nat) (hL : 1 ≤ L) (hcap : N < 100 + L) :
    num_repeats N L = 1 := by
  unfold num_repeats
  by_cases hN : 100 ≤ N
  · have hcast : ((N : Int) - 100) = ((N - 100 : Nat) : Int) := by omega
    rw [hcast, Int.fdiv_eq_ediv _ (by omega), ← Int.ofNat_ediv]
    have hz : (N - 100) / L = 0 := Nat.div_eq_of_lt (by omega)
    rw [if_pos (by omega)]
  · have hneg : ((N : Int) - 100) ≤ 0 := by omega
    have hlt : Int.fdiv ((N : Int) - 100) (L : Int) < 1 := by
      rw [Int.fdiv_eq_ediv _ (by omega)]
      have hmono := Int.ediv_le_ediv (by omega : (0 : Int) < (L : Int)) hneg
      simp only [Int.zero_ediv] at hmono
      omega
    rw [if_pos hlt]

theorem repeatList_one {α : Type} (l : List α) : repeatList l 1 = l := by
  simp [repeatList]

theorem repeatList_length {α : Type} (l : List α) (n : Nat) :
    (repeatList l n).length = n * l.length := by
  induction n with
  | zero => simp [repeatList]
  | succ n ih =>
    show (l ++ repeatList l n).length = _
    simp only [List.length_append, ih]
    ring

theorem repeatList_getD (l : List Bool) (n : Nat) :
    ∀ (r i : Nat), r < n → i < l.length →
    (repeatList l n).getD (r * l.length + i) false = l.getD i false := by
  induction n with
  | zero => intro r i hr _; omega
  | succ n ih =>
    intro r i hr hi
    show (l ++ repeatList l n).getD (r * l.length + i) false = _
    cases r with
    | zero =>
      simp only [Nat.zero_mul, Nat.zero_add]
      exact List.getD_append _ _ _ _ hi
    | succ r =>
      have harith : (r + 1) * l.length + i = l.length + (r * l.length + i) := by
        rw [Nat.succ_mul]
        ring
      rw [harith]
      rw [List.getD_append_right _ _ _ _ (by omega)]
      rw [show l.length + (r * l.length + i) - l.length = r * l.length + i by omega]
      exact ih r i (by omega) hi

theorem voteInner_length (flat key : List ℚ) (perm : List Nat) (base : Nat) :
    ∀ (rem i : Nat) (scores : List ℚ),
    (voteInner flat key perm base rem i scores).length = scores.length := by
  intro rem
  induction rem with
  | zero => intro i scores; rfl
  | succ rem ih =>
    intro i scores
    show (if base + i ≥ perm.length then scores
      else voteInner flat key perm base rem (i + 1) _).length = _
    by_cases hbr : base + i ≥ perm.length
    · rw [if_pos hbr]
    · rw [if_neg hbr, ih]
      by_cases hc : perm.getD (base + i) 0 < flat.length ∧
          perm.getD (base + i) 0 < key.length
      · rw [if_pos hc, List.length_set]
      · rw [if_neg hc]

theorem voteOuter_length (flat key : List ℚ) (perm : List Nat) (L : Nat) :
    ∀ (n r : Nat) (scores : List ℚ),
    (voteOuter flat key perm L n r scores).length = scores.length := by
  intro n
  induction n with
  | zero => intro r scores; rfl
  | succ n ih =>
    intro r scores
    show (voteOuter flat key perm L n (r + 1) _).length = _
    rw [ih, voteInner_length]

/-- C8: extract never fails for a positive requested length: for every
channel matrix, every reference vector (however short), every strength and
secret, `extract_channel` returns a best-effort bit string of exactly the
requested length (bits are Booleans in the model, i.e. only the characters
0 and 1 occur). -/
theorem extract_totality (m : List (List ℚ)) (key : List ℚ) (alpha : ℚ)
    (L : Nat) (s : String) (hL : 1 ≤ L) :
    ∃ bs, extract_channel m key alpha L s = some bs ∧ bs.length = L := by
  refine ⟨extract_vector ((dwt2 (dwt2 m).1).2.1).flatten key L s, ?_, ?_⟩
  · unfold extract_channel
    rw [if_neg (by omega)]
  · unfold extract_vector
    rw [List.length_map, voteOuter_length, List.length_replicate]

/-- Witness for C8 with a 2×2 matrix, an empty reference vector and a
requested length larger than the coefficient count. -/
theorem extract_totality_witness :
    1 ≤ 5 ∧ ∃ bs, extract_channel [[1, 2], [3, 4]] [] 30 5 "default" = some bs ∧
      bs.length = 5 :=
  ⟨by decide, extract_totality [[1, 2], [3, 4]] [] 30 5 "default" (by decide)⟩

theorem voteInner_getD (flat key : List ℚ) (perm : List Nat) (base : Nat) :
    ∀ (rem i : Nat) (scores : List ℚ) (j : Nat), j < scores.length →
    (voteInner flat key perm base rem i scores).getD j 0 =
      scores.getD j 0 +
        (if i ≤ j ∧ j < i + rem ∧ base + j < perm.length ∧
            perm.getD (base + j) 0 < flat.length ∧ perm.getD (base + j) 0 < key.length
         then flat.getD (perm.getD (base + j) 0) 0 - key.getD (perm.getD (base + j) 0) 0
         else 0) := by
  intro rem
  induction rem with
  | zero =>
    intro i scores j hj
    rw [if_neg (by rintro ⟨h1, h2, _⟩; omega)]
    show scores.getD j 0 = scores.getD j 0 + 0
    rw [add_zero]
  | succ rem ih =>
    intro i scores j hj
    show (if base + i ≥ perm.length then scores
      else voteInner flat key perm base rem (i + 1) _).getD j 0 = _
    by_cases hbr : base + i ≥ perm.length
    · rw [if_pos hbr, if_neg (by rintro ⟨h1, _, h3, _⟩; omega), add_zero]
    · rw [if_neg hbr]
      by_cases hji : j = i
      · subst hji
        have hset : (if perm.getD (base + j) 0 < flat.length ∧
              perm.getD (base + j) 0 < key.length then
            scores.set j (scores.getD j 0 + (flat.getD (perm.getD (base + j) 0) 0
              - key.getD (perm.getD (base + j) 0) 0))
          else scores).length = scores.length := by
          by_cases hc : perm.getD (base + j) 0 < flat.length ∧
              perm.getD (base + j) 0 < key.length
          · rw [if_pos hc, List.length_set]
          · rw [if_neg hc]
        rw [ih (j + 1) _ j (by rw [hset]; exact hj)]
        have hcond1 : ¬(j + 1 ≤ j ∧ j < (j + 1) + rem ∧ base + j < perm.length ∧
            perm.getD (base + j) 0 < flat.length ∧
            perm.getD (base + j) 0 < key.length) := by
          rintro ⟨h1, _⟩
          omega
        rw [if_neg hcond1, add_zero]
        by_cases hc : perm.getD (base + j) 0 < flat.length ∧
            perm.getD (base + j) 0 < key.length
        · have hcond2 : j ≤ j ∧ j < j + (rem + 1) ∧ base + j < perm.length ∧
              perm.getD (base + j) 0 < flat.length ∧
              perm.getD (base + j) 0 < key.length :=
            ⟨le_refl j, by omega, by omega, hc.1, hc.2⟩
          rw [if_pos hc, getD_set_self_q _ _ _ hj, if_pos hcond2]
        · have hcond2 : ¬(j ≤ j ∧ j < j + (rem + 1) ∧ base + j < perm.length ∧
              perm.getD (base + j) 0 < flat.length ∧
              perm.getD (base + j) 0 < key.length) := by
            rintro ⟨_, _, _, hc1, hc2⟩
            exact hc ⟨hc1, hc2⟩
          rw [if_neg hc, if_neg hcond2, add_zero]
      · have hset : (if perm.getD (base + i) 0 < flat.length ∧
              perm.getD (base + i) 0 < key.length then
            scores.set i (scores.getD i 0 + (flat.getD (perm.getD (base + i) 0) 0
              - key.getD (perm.getD (base + i) 0) 0))
          else scores).length = scores.length := by
          by_cases hc : perm.getD (base + i) 0 < flat.length ∧
              perm.getD (base + i) 0 < key.length
          · rw [if_pos hc, List.length_set]
          · rw [if_neg hc]
        rw [ih (i + 1) _ j (by rw [hset]; exact hj)]
        have hgd : (if perm.getD (base + i) 0 < flat.length ∧
              perm.getD (base + i) 0 < key.length then
            scores.set i (scores.getD i 0 + (flat.getD (perm.getD (base + i) 0) 0
              - key.getD (perm.getD (base + i) 0) 0))
          else scores).getD j 0 = scores.getD j 0 := by
          by_cases hc : perm.getD (base + i) 0 < flat.length ∧
              perm.getD (base + i) 0 < key.length
          · rw [if_pos hc]
            exact getD_set_ne_q _ _ _ _ (fun h => hji h.symm)
          · rw [if_neg hc]
        rw [hgd]
        congr 1
        apply if_congr _ rfl rfl
        constructor
        · rintro ⟨h1, h2, h3⟩
          exact ⟨by omega, by omega, h3⟩
        · rintro ⟨h1, h2, h3⟩
          exact ⟨by omega, by omega, h3⟩

theorem voteOuter_getD (flat key : List ℚ) (perm : List Nat) (L : Nat) :
    ∀ (n r : Nat) (scores : List ℚ) (j : Nat), j < scores.length → j < L →
    (voteOuter flat key perm L n r scores).getD j 0 =
      scores.getD j 0 +
        ((List.range n).map (fun md =>
          if 100 + (r + md) * L + j < perm.length ∧
              perm.getD (100 + (r + md) * L + j) 0 < flat.length ∧
              perm.getD (100 + (r + md) * L + j) 0 < key.length
          then flat.getD (perm.getD (100 + (r + md) * L + j) 0) 0
            - key.getD (perm.getD (100 + (r + md) * L + j) 0) 0
          else 0)).sum := by
  intro n
  induction n with
  | zero =>
    intro r scores j hj hjL
    show scores.getD j 0 = scores.getD j 0 + ([] : List ℚ).sum
    rw [List.sum_nil, add_zero]
  | succ n ih =>
    intro r scores j hj hjL
    show (voteOuter flat key perm L n (r + 1)
      (voteInner flat key perm (100 + r * L) L 0 scores)).getD j 0 = _
    rw [ih (r + 1) _ j (by rw [voteInner_length]; exact hj) hjL]
    rw [voteInner_getD flat key perm (100 + r * L) L 0 scores j hj]
    rw [List.range_succ_eq_map, List.map_cons, List.sum_cons, List.map_map]
    have hmap : ((List.range n).map (fun md =>
        if 100 + (r + 1 + md) * L + j < perm.length ∧
            perm.getD (100 + (r + 1 + md) * L + j) 0 < flat.length ∧
            perm.getD (100 + (r + 1 + md) * L + j) 0 < key.length
        then flat.getD (perm.getD (100 + (r + 1 + md) * L + j) 0) 0
          - key.getD (perm.getD (100 + (r + 1 + md) * L + j) 0) 0
        else 0)) = ((List.range n).map ((fun md =>
        if 100 + (r + md) * L + j < perm.length ∧
            perm.getD (100 + (r + md) * L + j) 0 < flat.length ∧
            perm.getD (100 + (r + md) * L + j) 0 < key.length
        then flat.getD (perm.getD (100 + (r + md) * L + j) 0) 0
          - key.getD (perm.getD (100 + (r + md) * L + j) 0) 0
        else 0) ∘ Nat.succ)) := by
      apply List.map_congr_left
      intro md _
      have harith : r + 1 + md = r + Nat.succ md := by omega
      rw [Function.comp_apply, harith]
    rw [← hmap]
    have hzero : (if 0 ≤ j ∧ j < 0 + L ∧ 100 + r * L + j < perm.length ∧
          perm.getD (100 + r * L + j) 0 < flat.length ∧
          perm.getD (100 + r * L + j) 0 < key.length
        then flat.getD (perm.getD (100 + r * L + j) 0) 0
          - key.getD (perm.getD (100 + r * L + j) 0) 0
        else 0)
        = (if 100 + (r + 0) * L + j < perm.length ∧
            perm.getD (100 + (r + 0) * L + j) 0 < flat.length ∧
            perm.getD (100 + (r + 0) * L + j) 0 < key.length
        then flat.getD (perm.getD (100 + (r + 0) * L + j) 0) 0
          - key.getD (perm.getD (100 + (r + 0) * L + j) 0) 0
        else 0) := by
      rw [Nat.add_zero]
      apply if_congr _ rfl rfl
      constructor
      · rintro ⟨_, _, h3⟩
        exact h3
      · intro h3
        exact ⟨by omega, by omega, h3⟩
    rw [hzero]
    ring

theorem sum_if_filter (l : List Nat) (p : Nat → Prop) [DecidablePred p]
    (f : Nat → ℚ) :
    (l.map (fun md => if p md then f md else 0)).sum
      = ((l.filter (fun md => decide (p md))).map f).sum := by
  induction l with
  | nil => rfl
  | cons x t ih =>
    simp only [List.map_cons, List.sum_cons, List.filter_cons]
    by_cases hx : p x
    · rw [if_pos hx, if_pos (by simpa using hx), List.map_cons, List.sum_cons, ih]
    · rw [if_neg hx, if_neg (by simpa using hx), ih, zero_add]

theorem getD_map_decide (l : List ℚ) (j : Nat) (hj : j < l.length) :
    (l.map (fun v => decide (0 < v))).getD j false = decide (0 < l.getD j 0) := by
  have hj2 : j < (l.map (fun v => decide (0 < v))).length := by simpa using hj
  rw [List.getD_eq_getElem _ _ hj2, List.getElem_map, List.getD_eq_getElem _ _ hj]

theorem getD_replicate_zero (L j : Nat) : (List.replicate L (0 : ℚ)).getD j 0 = 0 := by
  by_cases hj : j < L
  · have hj2 : j < (List.replicate L (0 : ℚ)).length := by simpa using hj
    rw [List.getD_eq_getElem _ _ hj2, List.getElem_replicate]
  · rw [List.getD_eq_default _ _ (by simpa using Nat.le_of_not_lt hj)]

/-- C4: the extract postcondition over the flattened LH2 vector, with a
full-length reference vector: the decoded bit at position `j` is 1 exactly
when the accumulated score — the sum over all in-bounds repeats `r` of the
coefficient at `permutation[100 + r*length + j]` minus the reference value
at the same index, out-of-bounds repeats skipped — is strictly positive,
and 0 otherwise, ties included. -/
theorem extract_vector_postcondition (flat key : List ℚ) (L : Nat) (s : String)
    (hL : 1 ≤ L) (hkey : key.length = flat.length) :
    (extract_vector flat key L s).length = L ∧
    ∀ j, j < L →
      (extract_vector flat key L s).getD j false =
        decide (0 < (((List.range (num_repeats flat.length L)).filter
          (fun r => decide (100 + r * L + j < flat.length))).map (fun r =>
            flat.getD ((get_scrambled_indices flat.length s).getD (100 + r * L + j) 0) 0
            - key.getD ((get_scrambled_indices flat.length s).getD (100 + r * L + j) 0) 0)).sum) := by
  have hNlen := get_scrambled_indices_length flat.length s
  have hsc : (voteOuter flat key (get_scrambled_indices flat.length s) L
      (num_repeats flat.length L) 0 (List.replicate L 0)).length = L := by
    rw [voteOuter_length, List.length_replicate]
  constructor
  · unfold extract_vector
    rw [List.length_map, voteOuter_length, List.length_replicate]
  · intro j hj
    unfold extract_vector
    rw [getD_map_decide _ j (by rw [hsc]; exact hj)]
    rw [voteOuter_getD flat key (get_scrambled_indices flat.length s) L
      (num_repeats flat.length L) 0 (List.replicate L 0) j
      (by rw [List.length_replicate]; exact hj) hj]
    rw [getD_replicate_zero, zero_add]
    congr 1
    have hcongr : ∀ md ∈ List.range (num_repeats flat.length L),
        (if 100 + (0 + md) * L + j < (get_scrambled_indices flat.length s).length ∧
            (get_scrambled_indices flat.length s).getD (100 + (0 + md) * L + j) 0
              < flat.length ∧
            (get_scrambled_indices flat.length s).getD (100 + (0 + md) * L + j) 0
              < key.length
         then flat.getD ((get_scrambled_indices flat.length s).getD
              (100 + (0 + md) * L + j) 0) 0
            - key.getD ((get_scrambled_indices flat.length s).getD
              (100 + (0 + md) * L + j) 0) 0
         else 0)
          = (fun r => if 100 + r * L + j < flat.length
              then flat.getD ((get_scrambled_indices flat.length s).getD
                  (100 + r * L + j) 0) 0
                - key.getD ((get_scrambled_indices flat.length s).getD
                  (100 + r * L + j) 0) 0
              else 0) md := by
      intro md _
      simp only [Nat.zero_add]
      by_cases hA : 100 + md * L + j < flat.length
      · rw [if_pos ⟨by rw [hNlen]; exact hA,
          get_scrambled_indices_getD_lt flat.length s _ hA,
          by rw [hkey]; exact get_scrambled_indices_getD_lt flat.length s _ hA⟩,
          if_pos hA]
      · rw [if_neg (fun hc => hA (by rw [← hNlen]; exact hc.1)), if_neg hA]
    rw [List.map_congr_left hcongr]
    rw [sum_if_filter (List.range (num_repeats flat.length L))
      (fun r => 100 + r * L + j < flat.length)]

/-- Witness for C4 at a concrete 2-coefficient vector with a full-length
reference vector and payload bit length 1. -/
theorem extract_vector_postcondition_witness :
    1 ≤ 1 ∧ ([0, 0] : List ℚ).length = ([3, 4] : List ℚ).length ∧
    ((extract_vector [3, 4] [0, 0] 1 "default").length = 1 ∧
      ∀ j, j < 1 →
        (extract_vector [3, 4] [0, 0] 1 "default").getD j false =
          decide (0 < (((List.range (num_repeats ([3, 4] : List ℚ).length 1)).filter
            (fun r => decide (100 + r * 1 + j < ([3, 4] : List ℚ).length))).map (fun r =>
              ([3, 4] : List ℚ).getD ((get_scrambled_indices ([3, 4] : List ℚ).length
                "default").getD (100 + r * 1 + j) 0) 0
              - ([0, 0] : List ℚ).getD ((get_scrambled_indices ([3, 4] : List ℚ).length
                "default").getD (100 + r * 1 + j) 0) 0)).sum)) :=
  ⟨by decide, by decide,
    extract_vector_postcondition [3, 4] [0, 0] 1 "default" (by decide) (by decide)⟩

/-- C3: the embed postcondition over the flattened LH2 vector: the
repetition count is `max(1, floor((N - 100) / len(payload)))` with Python
floor division, and for each bit position `t` of the repeated message
while `100 + t < N` the coefficient at `permutation[100 + t]` gains
`+alpha` for a 1 bit and `-alpha` for a 0 bit; every slot not addressed
this way keeps its original value, and the vector length is unchanged. -/
theorem embed_vector_postcondition (flat : List ℚ) (bits : List Bool) (a : ℚ)
    (s : String) (hbits : bits ≠ []) :
    ((num_repeats flat.length bits.length : Int)
        = max 1 (Int.fdiv ((flat.length : Int) - 100) (bits.length : Int))) ∧
    (embedded_vector flat bits a s).length = flat.length ∧
    (∀ t, t < (repeatList bits (num_repeats flat.length bits.length)).length →
      100 + t < flat.length →
      (embedded_vector flat bits a s).getD
          ((get_scrambled_indices flat.length s).getD (100 + t) 0) 0
        = flat.getD ((get_scrambled_indices flat.length s).getD (100 + t) 0) 0
          + (if (repeatList bits (num_repeats flat.length bits.length)).getD t false
             then a else -a)) ∧
    (∀ j, (∀ t, t < (repeatList bits (num_repeats flat.length bits.length)).length →
        100 + t < flat.length →
        (get_scrambled_indices flat.length s).getD (100 + t) 0 ≠ j) →
      (embedded_vector flat bits a s).getD j 0 = flat.getD j 0) := by
  have hNlen := get_scrambled_indices_length flat.length s
  refine ⟨num_repeats_cast _ _, ?_, ?_, ?_⟩
  · unfold embedded_vector
    rw [embedLoop_length]
  · intro t ht hbound
    unfold embedded_vector
    have happ := embedLoop_hit (get_scrambled_indices flat.length s) a
      (get_scrambled_indices_nodup _ _) t
      (repeatList bits (num_repeats flat.length bits.length)) flat 0
      hNlen (get_scrambled_indices_mem_lt flat.length s) ht
      (by rw [hNlen]; omega)
    simpa using happ
  · intro j hmiss
    unfold embedded_vector
    apply embedLoop_miss
    intro t ht hb
    have hb2 : 100 + t < flat.length := by
      rw [← hNlen]
      omega
    have := hmiss t ht hb2
    simpa using this

/-- Witness for C3 at a concrete 2-coefficient vector and 1-bit payload. -/
theorem embed_vector_postcondition_witness :
    ([true] : List Bool) ≠ [] ∧
    (((num_repeats ([5, 7] : List ℚ).length ([true] : List Bool).length : Int)
        = max 1 (Int.fdiv ((([5, 7] : List ℚ).length : Int) - 100)
            (([true] : List Bool).length : Int))) ∧
    (embedded_vector [5, 7] [true] 2 "default").length = ([5, 7] : List ℚ).length ∧
    (∀ t, t < (repeatList [true] (num_repeats ([5, 7] : List ℚ).length
        ([true] : List Bool).length)).length →
      100 + t < ([5, 7] : List ℚ).length →
      (embedded_vector [5, 7] [true] 2 "default").getD
          ((get_scrambled_indices ([5, 7] : List ℚ).length "default").getD (100 + t) 0) 0
        = ([5, 7] : List ℚ).getD ((get_scrambled_indices ([5, 7] : List ℚ).length
            "default").getD (100 + t) 0) 0
          + (if (repeatList [true] (num_repeats ([5, 7] : List ℚ).length
              ([true] : List Bool).length)).getD t false then 2 else -2)) ∧
    (∀ j, (∀ t, t < (repeatList [true] (num_repeats ([5, 7] : List ℚ).length
          ([true] : List Bool).length)).length →
        100 + t < ([5, 7] : List ℚ).length →
        (get_scrambled_indices ([5, 7] : List ℚ).length "default").getD (100 + t) 0 ≠ j) →
      (embedded_vector [5, 7] [true] 2 "default").getD j 0
        = ([5, 7] : List ℚ).getD j 0)) :=
  ⟨by decide, embed_vector_postcondition [5, 7] [true] 2 "default" (by decide)⟩

theorem embedLoop_take (perm : List Nat) (a : ℚ) :
    ∀ (msg : List Bool) (flat : List ℚ) (i0 : Nat),
    embedLoop perm a flat msg i0
      = embedLoop perm a flat (msg.take (perm.length - 100 - i0)) i0 := by
  intro msg
  induction msg with
  | nil => intro flat i0; rw [List.take_nil]
  | cons b rest ih =>
    intro flat i0
    by_cases hbr : 100 + i0 ≥ perm.length
    · have hk : perm.length - 100 - i0 = 0 := by omega
      rw [hk, List.take_zero]
      show (if 100 + i0 ≥ perm.length then flat else _) = flat
      rw [if_pos hbr]
    · have hk : perm.length - 100 - i0 = (perm.length - 100 - (i0 + 1)) + 1 := by
        omega
      rw [hk, List.take_succ_cons]
      show (if 100 + i0 ≥ perm.length then flat
          else embedLoop perm a (applyBit flat (perm.getD (100 + i0) 0) b a) rest (i0 + 1))
        = (if 100 + i0 ≥ perm.length then flat
          else embedLoop perm a (applyBit flat (perm.getD (100 + i0) 0) b a)
            (rest.take (perm.length - 100 - (i0 + 1))) (i0 + 1))
      rw [if_neg hbr, if_neg hbr]
      exact ih _ (i0 + 1)

theorem rect_not_degenerate (m : List (List ℚ)) (h w : Nat)
    (hm : IsRect m h w) (hh : 0 < h) (hw : 0 < w) :
    ¬ ((m.isEmpty || (m.headD []).isEmpty) = true) := by
  obtain ⟨hlen, hrow⟩ := hm
  cases m with
  | nil =>
    rw [List.length_nil] at hlen
    omega
  | cons r t =>
    simp only [List.isEmpty_cons, Bool.false_or, List.headD_cons,
      List.isEmpty_iff]
    intro hnil
    have hr : r.length = w := hrow r (List.mem_cons_self r t)
    rw [hnil, List.length_nil] at hr
    omega

/-- C1 amended: `embed_channel` never reports a capacity error. On any
channel with nonzero dimensions divisible by 4 (the domain where the
two-level Haar model is exact) and any nonempty payload it returns a
result; on overflow — payload bit length exceeding `N - 100` — it
silently embeds only the first `max(0, N - 100)` payload bits: the result
depends only on that prefix, so trailing bits are dropped without any
signal to the caller. On the degenerate empty channel, the only source of
`N = 0`, the code does fail, but inside `pywt.dwt2` (modelled by the
`none` guard of `embed_channel`), not with a reported capacity error. -/
theorem embed_silent_truncation (m : List (List ℚ)) (h w : Nat)
    (bits bits' : List Bool) (a : ℚ) (s : String)
    (hm : IsRect m (4 * h) (4 * w)) (hh : 0 < h) (hw : 0 < w)
    (h1 : bits ≠ []) (h2 : bits' ≠ []) :
    (embed_channel m bits a s).isSome = true ∧
    (lh2_slots m < 100 + bits.length → lh2_slots m < 100 + bits'.length →
      bits.take (lh2_slots m - 100) = bits'.take (lh2_slots m - 100) →
      embed_channel m bits a s = embed_channel m bits' a s) := by
  have hguard := rect_not_degenerate m (4 * h) (4 * w) hm (by omega) (by omega)
  constructor
  · unfold embed_channel
    rw [if_neg hguard, if_neg (by simpa using h1)]
    rfl
  · intro hov hov' htake
    have hfl : ((dwt2 (dwt2 m).1).2.1).flatten.length = lh2_slots m := rfl
    have heq : embedded_vector ((dwt2 (dwt2 m).1).2.1).flatten bits a s
        = embedded_vector ((dwt2 (dwt2 m).1).2.1).flatten bits' a s := by
      unfold embedded_vector
      have hplen := get_scrambled_indices_length
        ((dwt2 (dwt2 m).1).2.1).flatten.length s
      rw [num_repeats_overflow _ _ (by
          have := List.length_pos.mpr h1
          omega) (by rw [hfl]; omega)]
      rw [num_repeats_overflow _ _ (by
          have := List.length_pos.mpr h2
          omega) (by rw [hfl]; omega)]
      rw [repeatList_one, repeatList_one]
      rw [embedLoop_take _ _ bits, embedLoop_take _ _ bits']
      rw [hplen, hfl]
      rw [show lh2_slots m - 100 - 0 = lh2_slots m - 100 by omega, htake]
    unfold embed_channel
    rw [if_neg hguard, if_neg (by simpa using h1), if_neg hguard,
      if_neg (by simpa using h2)]
    simp only [heq]

/-- Witness for C1's amended statement: a 4×4 zero channel (N = 1), two
distinct overflowing 2-bit payloads with equal (empty) fitting prefixes. -/
theorem embed_silent_truncation_witness :
    IsRect (List.replicate 4 (List.replicate 4 0)) (4 * 1) (4 * 1) ∧
    0 < 1 ∧
    ([true, true] : List Bool) ≠ [] ∧ ([true, false] : List Bool) ≠ [] ∧
    ((embed_channel (List.replicate 4 (List.replicate 4 0)) [true, true] 30
        "default").isSome = true ∧
      (lh2_slots (List.replicate 4 (List.replicate 4 0)) < 100 + 2 →
        lh2_slots (List.replicate 4 (List.replicate 4 0)) < 100 + 2 →
        ([true, true] : List Bool).take
            (lh2_slots (List.replicate 4 (List.replicate 4 0)) - 100)
          = ([true, false] : List Bool).take
            (lh2_slots (List.replicate 4 (List.replicate 4 0)) - 100) →
        embed_channel (List.replicate 4 (List.replicate 4 0)) [true, true] 30 "default"
          = embed_channel (List.replicate 4 (List.replicate 4 0)) [true, false] 30
            "default")) :=
  ⟨⟨by decide, by decide⟩, by decide, by decide, by decide,
    embed_silent_truncation (List.replicate 4 (List.replicate 4 0)) 1 1
      [true, true] [true, false] 30 "default" ⟨by decide, by decide⟩
      (by decide) (by decide) (by decide) (by decide)⟩

theorem chunk2_interleave2 {α : Type} : ∀ ps : List (α × α),
    chunk2 (interleave2 ps) = ps
  | [] => rfl
  | (a, b) :: t => by
    show chunk2 (a :: b :: interleave2 t) = (a, b) :: t
    show (a, b) :: chunk2 (interleave2 t) = (a, b) :: t
    rw [chunk2_interleave2 t]

theorem interleave2_length {α : Type} : ∀ ps : List (α × α),
    (interleave2 ps).length = 2 * ps.length
  | [] => rfl
  | (a, b) :: t => by
    show (a :: b :: interleave2 t).length = 2 * ((a, b) :: t).length
    simp only [List.length_cons, interleave2_length t]
    omega

theorem chunk2_flatten_pairs {α β : Type} (f g : β → α) : ∀ l : List β,
    chunk2 ((l.map (fun x => [f x, g x])).flatten) = l.map (fun x => (f x, g x))
  | [] => rfl
  | x :: t => by
    show chunk2 (f x :: g x :: (t.map (fun x => [f x, g x])).flatten) = _
    show (f x, g x) :: chunk2 ((t.map (fun x => [f x, g x])).flatten) = _
    rw [chunk2_flatten_pairs f g t]
    rfl

theorem flatten_pairs_length {α β : Type} (f g : β → List α) : ∀ l : List β,
    ((l.map (fun x => [f x, g x])).flatten).length = 2 * l.length
  | [] => rfl
  | x :: t => by
    show ([f x, g x] ++ (t.map (fun x => [f x, g x])).flatten).length = _
    simp only [List.length_append, flatten_pairs_length f g t, List.length_cons]
    simp only [List.length_cons, List.length_nil]
    omega

theorem chunk2_length_half {α : Type} : ∀ l : List α,
    (chunk2 l).length = l.length / 2
  | [] => by simp [chunk2]
  | [a] => by simp [chunk2]
  | a :: b :: t => by
    show ((a, b) :: chunk2 t).length = (a :: b :: t).length / 2
    simp only [List.length_cons, chunk2_length_half t]
    omega

theorem chunk2_mem {α : Type} : ∀ (l : List α) (p : α × α), p ∈ chunk2 l →
    p.1 ∈ l ∧ p.2 ∈ l
  | [], p, hp => by simp [chunk2] at hp
  | [a], p, hp => by simp [chunk2] at hp
  | a :: b :: t, p, hp => by
    have hp2 : p ∈ (a, b) :: chunk2 t := hp
    rcases List.mem_cons.mp hp2 with heq | hmem
    · subst heq
      exact ⟨by simp, by simp⟩
    · have := chunk2_mem t p hmem
      exact ⟨by simp [this.1], by simp [this.2]⟩

theorem haarQuad_haarQuad (q : (ℚ × ℚ) × (ℚ × ℚ)) : haarQuad (haarQuad q) = q := by
  obtain ⟨⟨a, b⟩, c, d⟩ := q
  unfold haarQuad
  simp only [Prod.mk.injEq]
  refine ⟨⟨by ring, by ring⟩, by ring, by ring⟩

theorem rect_flatten_length : ∀ (m : List (List ℚ)) (h w : Nat), IsRect m h w →
    m.flatten.length = h * w := by
  intro m
  induction m with
  | nil =>
    intro h w hm
    have h0 : h = 0 := by simpa using hm.1.symm
    subst h0
    simp
  | cons r t ih =>
    intro h w hm
    obtain ⟨hlen, hrow⟩ := hm
    cases h with
    | zero => simp at hlen
    | succ h =>
      simp only [List.flatten_cons, List.length_append]
      rw [hrow r (by simp), ih h w ⟨by simpa using hlen, fun x hx => hrow x (by simp [hx])⟩]
      ring

theorem reshape_shape : ∀ (h w : Nat) (l : List ℚ), l.length = h * w →
    IsRect (reshape h w l) h w := by
  intro h
  induction h with
  | zero => intro w l _; exact ⟨rfl, by intro r hr; simp [reshape] at hr⟩
  | succ h ih =>
    intro w l hl
    have hwle : w ≤ l.length := by
      rw [hl, Nat.succ_mul]
      omega
    have hdrop : (l.drop w).length = h * w := by
      rw [List.length_drop, hl, Nat.succ_mul]
      omega
    obtain ⟨ih1, ih2⟩ := ih w (l.drop w) hdrop
    constructor
    · show (l.take w :: reshape h w (l.drop w)).length = h + 1
      simp only [List.length_cons, ih1]
    · intro r hr
      rcases List.mem_cons.mp hr with heq | hmem
      · subst heq
        rw [List.length_take]
        omega
      · exact ih2 r hmem

theorem reshape_flatten : ∀ (h w : Nat) (l : List ℚ), l.length = h * w →
    (reshape h w l).flatten = l := by
  intro h
  induction h with
  | zero =>
    intro w l hl
    have : l = [] := List.eq_nil_of_length_eq_zero (by simpa using hl)
    subst this
    rfl
  | succ h ih =>
    intro w l hl
    have hdrop : (l.drop w).length = h * w := by
      rw [List.length_drop, hl, Nat.succ_mul]
      omega
    show (l.take w :: reshape h w (l.drop w)).flatten = l
    simp only [List.flatten_cons]
    rw [ih w (l.drop w) hdrop, List.take_append_drop]

theorem cropTo_self (m : List (List ℚ)) (h w : Nat) (hm : IsRect m h w) :
    cropTo h w m = m := by
  obtain ⟨h1, h2⟩ := hm
  unfold cropTo
  rw [← h1, List.take_length]
  have : ∀ r ∈ m, r.take w = r := by
    intro r hr
    rw [← h2 r hr]
    exact List.take_length r
  calc m.map (fun r => r.take w) = m.map id := List.map_congr_left this
    _ = m := List.map_id m

theorem rowLen_of_rect (m : List (List ℚ)) (h w : Nat) (hm : IsRect m h w)
    (hh : 0 < h) : rowLen m = w := by
  obtain ⟨h1, h2⟩ := hm
  cases m with
  | nil => simp at h1; omega
  | cons r t =>
    show r.length = w
    exact h2 r (by simp)

theorem dwt2_band_shape (m : List (List ℚ)) (h w : Nat)
    (hm : IsRect m (2 * h) (2 * w)) (f : (ℚ × ℚ) × (ℚ × ℚ) → ℚ) :
    IsRect (((chunk2 m).map (fun rp =>
      ((chunk2 rp.1).zip (chunk2 rp.2)).map haarQuad)).map (fun r => r.map f)) h w := by
  constructor
  · rw [List.length_map, List.length_map, chunk2_length_half, hm.1]
    omega
  · intro r hr
    obtain ⟨rr, hrr, hreq⟩ := List.mem_map.mp hr
    obtain ⟨rp, hrp, hrr2⟩ := List.mem_map.mp hrr
    subst hreq
    subst hrr2
    have hmem := chunk2_mem m rp hrp
    have hl1 : rp.1.length = 2 * w := hm.2 rp.1 hmem.1
    have hl2 : rp.2.length = 2 * w := hm.2 rp.2 hmem.2
    rw [List.length_map, List.length_map, List.length_zip,
      chunk2_length_half, chunk2_length_half, hl1, hl2]
    omega

theorem dwt2_shape (m : List (List ℚ)) (h w : Nat) (hm : IsRect m (2 * h) (2 * w)) :
    IsRect (dwt2 m).1 h w ∧ IsRect (dwt2 m).2.1 h w ∧
    IsRect (dwt2 m).2.2.1 h w ∧ IsRect (dwt2 m).2.2.2 h w :=
  ⟨dwt2_band_shape m h w hm _, dwt2_band_shape m h w hm _,
   dwt2_band_shape m h w hm _, dwt2_band_shape m h w hm _⟩

theorem dwt2_idwt2 (A H V D : List (List ℚ)) (h w : Nat)
    (hA : IsRect A h w) (hH : IsRect H h w) (hV : IsRect V h w)
    (hD : IsRect D h w) :
    dwt2 (idwt2 A H V D) = (A, H, V, D) := by
  have hzipAH : (A.zip H).length = h := by
    rw [List.length_zip, hA.1, hH.1]
    omega
  have hzipVD : (V.zip D).length = h := by
    rw [List.length_zip, hV.1, hD.1]
    omega
  have hchunk : chunk2 (idwt2 A H V D)
      = ((A.zip H).zip (V.zip D)).map (fun r =>
        (interleave2 ((((r.1.1.zip r.1.2).zip (r.2.1.zip r.2.2)).map haarQuad).map
          (fun q => q.1)),
         interleave2 ((((r.1.1.zip r.1.2).zip (r.2.1.zip r.2.2)).map haarQuad).map
          (fun q => q.2)))) :=
    chunk2_flatten_pairs _ _ _
  have hrows : (chunk2 (idwt2 A H V D)).map (fun rp =>
      ((chunk2 rp.1).zip (chunk2 rp.2)).map haarQuad)
      = ((A.zip H).zip (V.zip D)).map (fun r =>
        (r.1.1.zip r.1.2).zip (r.2.1.zip r.2.2)) := by
    rw [hchunk, List.map_map]
    apply List.map_congr_left
    intro r _
    simp only [Function.comp_apply]
    rw [chunk2_interleave2, chunk2_interleave2]
    rw [List.map_map, List.map_map, List.zip_map', List.map_map]
    have hpt : ∀ q ∈ (r.1.1.zip r.1.2).zip (r.2.1.zip r.2.2),
        (haarQuad ∘ fun q => (((fun x : (ℚ × ℚ) × (ℚ × ℚ) => x.1) ∘ haarQuad) q,
          ((fun x : (ℚ × ℚ) × (ℚ × ℚ) => x.2) ∘ haarQuad) q)) q = q := by
      intro q _
      show haarQuad ((haarQuad q).1, (haarQuad q).2) = q
      exact haarQuad_haarQuad q
    calc ((r.1.1.zip r.1.2).zip (r.2.1.zip r.2.2)).map
          (haarQuad ∘ fun q => (((fun x : (ℚ × ℚ) × (ℚ × ℚ) => x.1) ∘ haarQuad) q,
            ((fun x : (ℚ × ℚ) × (ℚ × ℚ) => x.2) ∘ haarQuad) q))
        = ((r.1.1.zip r.1.2).zip (r.2.1.zip r.2.2)).map (fun q => q) :=
          List.map_congr_left hpt
      _ = (r.1.1.zip r.1.2).zip (r.2.1.zip r.2.2) := List.map_id' _
  have hmemlens : ∀ r ∈ (A.zip H).zip (V.zip D),
      r.1.1.length = w ∧ r.1.2.length = w ∧ r.2.1.length = w ∧ r.2.2.length = w := by
    intro r hr
    obtain ⟨⟨ra, rh⟩, rv, rd⟩ := r
    obtain ⟨hin1, hin2⟩ := List.of_mem_zip hr
    obtain ⟨ha2, hh2⟩ := List.of_mem_zip hin1
    obtain ⟨hv2, hd2⟩ := List.of_mem_zip hin2
    exact ⟨hA.2 _ ha2, hH.2 _ hh2, hV.2 _ hv2, hD.2 _ hd2⟩
  show dwt2 (idwt2 A H V D) = (A, H, V, D)
  unfold dwt2
  simp only [hrows, List.map_map]
  have hb1 : ((A.zip H).zip (V.zip D)).map ((fun r => r.map (fun q => q.1.1)) ∘
      (fun r => (r.1.1.zip r.1.2).zip (r.2.1.zip r.2.2))) = A := by
    have hstep : ((A.zip H).zip (V.zip D)).map ((fun r => r.map (fun q => q.1.1)) ∘
        (fun r => (r.1.1.zip r.1.2).zip (r.2.1.zip r.2.2)))
        = ((A.zip H).zip (V.zip D)).map (fun r => r.1.1) := by
      apply List.map_congr_left
      intro r hr
      obtain ⟨hw1, hw2, hw3, hw4⟩ := hmemlens r hr
      simp only [Function.comp_apply]
      have h1 : ((r.1.1.zip r.1.2).zip (r.2.1.zip r.2.2)).map
          (fun q : (ℚ × ℚ) × (ℚ × ℚ) => q.1.1)
          = ((((r.1.1.zip r.1.2).zip (r.2.1.zip r.2.2)).map Prod.fst).map Prod.fst) := by
        rw [List.map_map]
        rfl
      rw [h1, List.map_fst_zip _ _ (by
        simp only [List.length_zip, hw1, hw2, hw3, hw4]
        omega)]
      rw [List.map_fst_zip _ _ (by rw [hw1, hw2])]
    rw [hstep]
    have h2 : ((A.zip H).zip (V.zip D)).map (fun r => r.1.1)
        = ((((A.zip H).zip (V.zip D)).map Prod.fst).map Prod.fst) := by
      rw [List.map_map]
      rfl
    rw [h2, List.map_fst_zip _ _ (by rw [hzipAH, hzipVD]),
      List.map_fst_zip _ _ (by rw [hA.1, hH.1])]
  have hb2 : ((A.zip H).zip (V.zip D)).map ((fun r => r.map (fun q => q.1.2)) ∘
      (fun r => (r.1.1.zip r.1.2).zip (r.2.1.zip r.2.2))) = H := by
    have hstep : ((A.zip H).zip (V.zip D)).map ((fun r => r.map (fun q => q.1.2)) ∘
        (fun r => (r.1.1.zip r.1.2).zip (r.2.1.zip r.2.2)))
        = ((A.zip H).zip (V.zip D)).map (fun r => r.1.2) := by
      apply List.map_congr_left
      intro r hr
      obtain ⟨hw1, hw2, hw3, hw4⟩ := hmemlens r hr
      simp only [Function.comp_apply]
      have h1 : ((r.1.1.zip r.1.2).zip (r.2.1.zip r.2.2)).map
          (fun q : (ℚ × ℚ) × (ℚ × ℚ) => q.1.2)
          = ((((r.1.1.zip r.1.2).zip (r.2.1.zip r.2.2)).map Prod.fst).map Prod.snd) := by
        rw [List.map_map]
        rfl
      rw [h1, List.map_fst_zip _ _ (by
        simp only [List.length_zip, hw1, hw2, hw3, hw4]
        omega)]
      rw [List.map_snd_zip _ _ (by rw [hw1, hw2])]
    rw [hstep]
    have h2 : ((A.zip H).zip (V.zip D)).map (fun r => r.1.2)
        = ((((A.zip H).zip (V.zip D)).map Prod.fst).map Prod.snd) := by
      rw [List.map_map]
      rfl
    rw [h2, List.map_fst_zip _ _ (by rw [hzipAH, hzipVD]),
      List.map_snd_zip _ _ (by rw [hA.1, hH.1])]
  have hb3 : ((A.zip H).zip (V.zip D)).map ((fun r => r.map (fun q => q.2.1)) ∘
      (fun r => (r.1.1.zip r.1.2).zip (r.2.1.zip r.2.2))) = V := by
    have hstep : ((A.zip H).zip (V.zip D)).map ((fun r => r.map (fun q => q.2.1)) ∘
        (fun r => (r.1.1.zip r.1.2).zip (r.2.1.zip r.2.2)))
        = ((A.zip H).zip (V.zip D)).map (fun r => r.2.1) := by
      apply List.map_congr_left
      intro r hr
      obtain ⟨hw1, hw2, hw3, hw4⟩ := hmemlens r hr
      simp only [Function.comp_apply]
      have h1 : ((r.1.1.zip r.1.2).zip (r.2.1.zip r.2.2)).map
          (fun q : (ℚ × ℚ) × (ℚ × ℚ) => q.2.1)
          = ((((r.1.1.zip r.1.2).zip (r.2.1.zip r.2.2)).map Prod.snd).map Prod.fst) := by
        rw [List.map_map]
        rfl
      rw [h1, List.map_snd_zip _ _ (by
        simp only [List.length_zip, hw1, hw2, hw3, hw4]
        omega)]
      rw [List.map_fst_zip _ _ (by rw [hw3, hw4])]
    rw [hstep]
    have h2 : ((A.zip H).zip (V.zip D)).map (fun r => r.2.1)
        = ((((A.zip H).zip (V.zip D)).map Prod.snd).map Prod.fst) := by
      rw [List.map_map]
      rfl
    rw [h2, List.map_snd_zip _ _ (by rw [hzipAH, hzipVD]),
      List.map_fst_zip _ _ (by rw [hV.1, hD.1])]
  have hb4 : ((A.zip H).zip (V.zip D)).map ((fun r => r.map (fun q => q.2.2)) ∘
      (fun r => (r.1.1.zip r.1.2).zip (r.2.1.zip r.2.2))) = D := by
    have hstep : ((A.zip H).zip (V.zip D)).map ((fun r => r.map (fun q => q.2.2)) ∘
        (fun r => (r.1.1.zip r.1.2).zip (r.2.1.zip r.2.2)))
        = ((A.zip H).zip (V.zip D)).map (fun r => r.2.2) := by
      apply List.map_congr_left
      intro r hr
      obtain ⟨hw1, hw2, hw3, hw4⟩ := hmemlens r hr
      simp only [Function.comp_apply]
      have h1 : ((r.1.1.zip r.1.2).zip (r.2.1.zip r.2.2)).map
          (fun q : (ℚ × ℚ) × (ℚ × ℚ) => q.2.2)
          = ((((r.1.1.zip r.1.2).zip (r.2.1.zip r.2.2)).map Prod.snd).map Prod.snd) := by
        rw [List.map_map]
        rfl
      rw [h1, List.map_snd_zip _ _ (by
        simp only [List.length_zip, hw1, hw2, hw3, hw4]
        omega)]
      rw [List.map_snd_zip _ _ (by rw [hw3, hw4])]
    rw [hstep]
    have h2 : ((A.zip H).zip (V.zip D)).map (fun r => r.2.2)
        = ((((A.zip H).zip (V.zip D)).map Prod.snd).map Prod.snd) := by
      rw [List.map_map]
      rfl
    rw [h2, List.map_snd_zip _ _ (by rw [hzipAH, hzipVD]),
      List.map_snd_zip _ _ (by rw [hV.1, hD.1])]
  rw [hb1, hb2, hb3, hb4]

theorem idwt2_shape (A H V D : List (List ℚ)) (h w : Nat)
    (hA : IsRect A h w) (hH : IsRect H h w) (hV : IsRect V h w)
    (hD : IsRect D h w) :
    IsRect (idwt2 A H V D) (2 * h) (2 * w) := by
  have hzip : ((A.zip H).zip (V.zip D)).length = h := by
    simp only [List.length_zip, hA.1, hH.1, hV.1, hD.1]
    omega
  constructor
  · show ((((A.zip H).zip (V.zip D)).map _).flatten).length = 2 * h
    rw [flatten_pairs_length, hzip]
  · intro r hr
    obtain ⟨l, hl, hrl⟩ := List.mem_flatten.mp hr
    obtain ⟨rr, hrr, hleq⟩ := List.mem_map.mp hl
    obtain ⟨⟨ra, rh⟩, rv, rd⟩ := rr
    obtain ⟨hin1, hin2⟩ := List.of_mem_zip hrr
    obtain ⟨ha2, hh2⟩ := List.of_mem_zip hin1
    obtain ⟨hv2, hd2⟩ := List.of_mem_zip hin2
    have hquadlen : (((ra.zip rh).zip (rv.zip rd)).map haarQuad).length = w := by
      simp only [List.length_map, List.length_zip, hA.2 _ ha2, hH.2 _ hh2,
        hV.2 _ hv2, hD.2 _ hd2]
      omega
    subst hleq
    rcases List.mem_cons.mp hrl with heq | hrl2
    · subst heq
      rw [interleave2_length, List.length_map, hquadlen]
    · rcases List.mem_cons.mp hrl2 with heq | hrl3
      · subst heq
        rw [interleave2_length, List.length_map, hquadlen]
      · simp at hrl3

theorem text_to_binary_length (t : String) (hv : ∀ c ∈ t.data, c.toNat ≤ 255) :
    (text_to_binary t).length = 8 * t.length := by
  obtain ⟨cs⟩ := t
  show ((cs.map (fun c => zfill 8 (natBin c.toNat))).flatten).length = 8 * cs.length
  simp only [String.data] at hv
  induction cs with
  | nil => rfl
  | cons c rest ih =>
    simp only [List.map_cons, List.flatten_cons, List.length_append, List.length_cons]
    rw [byte_bits_length c.toNat (hv c (by simp)), ih (fun x hx => hv x (by simp [hx]))]
    ring

theorem sum_map_const_range (n : Nat) (c : ℚ) :
    ((List.range n).map (fun _ => c)).sum = n * c := by
  induction n with
  | zero => simp
  | succ n ih =>
    rw [List.range_succ, List.map_append, List.sum_append, ih]
    push_cast
    simp only [List.map_cons, List.map_nil, List.sum_cons, List.sum_nil]
    ring

theorem binary_text_roundtrip (t : String) (hv : ∀ c ∈ t.data, c.toNat ≤ 255) :
    binary_to_text (text_to_binary t) = t := by
  obtain ⟨cs⟩ := t
  unfold text_to_binary binary_to_text
  simp only [String.data] at hv ⊢
  rw [codec_chars_roundtrip cs hv]

theorem vector_roundtrip (flat : List ℚ) (bits : List Bool) (a : ℚ) (s : String)
    (hbits : 1 ≤ bits.length) (hcap : 100 + bits.length ≤ flat.length)
    (ha : 0 < a) :
    extract_vector (embedded_vector flat bits a s) flat bits.length s = bits := by
  have hmodlen : (embedded_vector flat bits a s).length = flat.length := by
    unfold embedded_vector
    rw [embedLoop_length]
  have hNlen := get_scrambled_indices_length flat.length s
  have hrep1 : 1 ≤ num_repeats flat.length bits.length := num_repeats_pos _ _
  have hrepdef := num_repeats_of_le flat.length bits.length hbits hcap
  have hmsgcap : num_repeats flat.length bits.length * bits.length
      ≤ flat.length - 100 := by
    rw [hrepdef]
    exact Nat.div_mul_le_self _ _
  have hmsglen : (repeatList bits (num_repeats flat.length bits.length)).length
      = num_repeats flat.length bits.length * bits.length := repeatList_length _ _
  have hexlen : (extract_vector (embedded_vector flat bits a s) flat
      bits.length s).length = bits.length := by
    unfold extract_vector
    rw [List.length_map, voteOuter_length, List.length_replicate]
  apply List.ext_getElem (by rw [hexlen])
  intro j hj hj2
  rw [hexlen] at hj
  have hscores : j < (voteOuter (embedded_vector flat bits a s) flat
      (get_scrambled_indices (embedded_vector flat bits a s).length s)
      bits.length (num_repeats (embedded_vector flat bits a s).length bits.length) 0
      (List.replicate bits.length 0)).length := by
    rw [voteOuter_length, List.length_replicate]
    exact hj
  have hgetd : (extract_vector (embedded_vector flat bits a s) flat
      bits.length s).getD j false = bits.getD j false := by
    unfold extract_vector
    rw [getD_map_decide _ j hscores]
    rw [voteOuter_getD _ _ _ _ _ _ _ j (by rw [List.length_replicate]; exact hj) hj]
    rw [getD_replicate_zero, zero_add, hmodlen]
    have hcongr : ∀ md ∈ List.range (num_repeats flat.length bits.length),
        (if 100 + (0 + md) * bits.length + j
              < (get_scrambled_indices flat.length s).length ∧
            (get_scrambled_indices flat.length s).getD
              (100 + (0 + md) * bits.length + j) 0 < flat.length ∧
            (get_scrambled_indices flat.length s).getD
              (100 + (0 + md) * bits.length + j) 0 < flat.length
         then (embedded_vector flat bits a s).getD
              ((get_scrambled_indices flat.length s).getD
                (100 + (0 + md) * bits.length + j) 0) 0
            - flat.getD ((get_scrambled_indices flat.length s).getD
                (100 + (0 + md) * bits.length + j) 0) 0
         else 0)
          = (fun _ : Nat => if bits.getD j false then a else -a) md := by
      intro md hmd
      have hmdlt : md < num_repeats flat.length bits.length := List.mem_range.mp hmd
      have htlt : md * bits.length + j
          < num_repeats flat.length bits.length * bits.length := by
        calc md * bits.length + j < md * bits.length + bits.length := by omega
          _ = (md + 1) * bits.length := by ring
          _ ≤ num_repeats flat.length bits.length * bits.length :=
            Nat.mul_le_mul_right _ (by omega)
      have hidx : 100 + md * bits.length + j < flat.length := by omega
      have hp := get_scrambled_indices_getD_lt flat.length s
        (100 + md * bits.length + j) hidx
      simp only [Nat.zero_add]
      rw [if_pos ⟨by rw [hNlen]; exact hidx, hp, hp⟩]
      have hhit := embedLoop_hit (get_scrambled_indices flat.length s) a
        (get_scrambled_indices_nodup _ _) (md * bits.length + j)
        (repeatList bits (num_repeats flat.length bits.length)) flat 0
        hNlen (get_scrambled_indices_mem_lt flat.length s)
        (by rw [hmsglen]; exact htlt)
        (by rw [hNlen]; omega)
      have hhit2 : (embedded_vector flat bits a s).getD
          ((get_scrambled_indices flat.length s).getD
            (100 + md * bits.length + j) 0) 0
          = flat.getD ((get_scrambled_indices flat.length s).getD
              (100 + md * bits.length + j) 0) 0
            + (if (repeatList bits (num_repeats flat.length bits.length)).getD
                (md * bits.length + j) false then a else -a) := by
        unfold embedded_vector
        have h100 : 100 + 0 + (md * bits.length + j)
            = 100 + md * bits.length + j := by omega
        rw [h100] at hhit
        exact hhit
      rw [hhit2]
      rw [repeatList_getD bits _ md j hmdlt (by omega)]
      ring
    rw [List.map_congr_left hcongr]
    rw [sum_map_const_range]
    by_cases hbit : bits.getD j false = true
    · rw [hbit, if_pos rfl]
      have hpos : (0 : ℚ) < (num_repeats flat.length bits.length : ℚ) * a := by
        apply mul_pos _ ha
        exact_mod_cast hrep1
      simp [hpos]
    · have hbit2 : bits.getD j false = false := by
        cases hb : bits.getD j false
        · rfl
        · exact absurd hb hbit
      rw [hbit2, if_neg (by simp)]
      have hneg : (num_repeats flat.length bits.length : ℚ) * (-a) < 0 := by
        apply mul_neg_of_pos_of_neg
        · exact_mod_cast hrep1
        · exact neg_lt_zero.mpr ha
      have h0 : (0 : ℚ) ≤ (num_repeats flat.length bits.length : ℚ) * a :=
        mul_nonneg (by positivity) (le_of_lt ha)
      simp [not_lt.mpr (le_of_lt hneg), h0]
  have hj3 : j < ((extract_vector (embedded_vector flat bits a s) flat
      bits.length s)).length := by rw [hexlen]; exact hj
  rw [← List.getD_eq_getElem _ false hj3, ← List.getD_eq_getElem _ false hj2]
  exact hgetd

/-- C2 amended: the codec round-trips exactly before quantization. For
every channel matrix with dimensions divisible by 4, every text of 8-bit
characters whose bit length fits the `N - 100` capacity and every positive
strength, embedding and then extracting from the real-valued watermarked
channel with the returned reference vector, the same strength, secret and
`length = len(text) * 8` decodes exactly the original text. -/
theorem roundtrip_exact_channel (m : List (List ℚ)) (h w : Nat) (text : String)
    (a : ℚ) (s : String)
    (hm : IsRect m (4 * h) (4 * w))
    (hchars : ∀ c ∈ text.data, c.toNat ≤ 255)
    (hlen : 1 ≤ text.length)
    (hcap : 100 + 8 * text.length ≤ h * w)
    (ha : 0 < a) :
    channel_roundtrip m text a s = some text := by
  have hbitslen : (text_to_binary text).length = 8 * text.length :=
    text_to_binary_length text hchars
  have hbitsne : ¬ (text_to_binary text).isEmpty = true := by
    simp only [List.isEmpty_iff]
    intro hnil
    rw [hnil] at hbitslen
    simp only [List.length_nil] at hbitslen
    omega
  have hm2 : IsRect m (2 * (2 * h)) (2 * (2 * w)) :=
    ⟨by have := hm.1; omega, fun r hr => by have := hm.2 r hr; omega⟩
  obtain ⟨hLL1, hLH1, hHL1, hHH1⟩ := dwt2_shape m (2 * h) (2 * w) hm2
  obtain ⟨hLL2, hLH2, hHL2, hHH2⟩ := dwt2_shape (dwt2 m).1 h w hLL1
  have hN : (((dwt2 (dwt2 m).1).2.1).flatten).length = h * w :=
    rect_flatten_length _ h w hLH2
  have hh : 0 < h := by
    rcases Nat.eq_zero_or_pos h with rfl | hpos
    · rw [Nat.zero_mul] at hcap
      omega
    · exact hpos
  have hw : 0 < w := by
    rcases Nat.eq_zero_or_pos w with rfl | hpos
    · rw [Nat.mul_zero] at hcap
      omega
    · exact hpos
  have hmodlen : (embedded_vector (((dwt2 (dwt2 m).1).2.1).flatten)
      (text_to_binary text) a s).length = h * w := by
    unfold embedded_vector
    rw [embedLoop_length, hN]
  have hmodrect : IsRect (reshape ((dwt2 (dwt2 m).1).2.1).length
      (rowLen ((dwt2 (dwt2 m).1).2.1))
      (embedded_vector (((dwt2 (dwt2 m).1).2.1).flatten) (text_to_binary text) a s))
      h w := by
    rw [hLH2.1, rowLen_of_rect _ h w hLH2 hh]
    exact reshape_shape h w _ hmodlen
  have hmodflat : (reshape ((dwt2 (dwt2 m).1).2.1).length
      (rowLen ((dwt2 (dwt2 m).1).2.1))
      (embedded_vector (((dwt2 (dwt2 m).1).2.1).flatten) (text_to_binary text) a s)).flatten
      = embedded_vector (((dwt2 (dwt2 m).1).2.1).flatten) (text_to_binary text) a s := by
    rw [hLH2.1, rowLen_of_rect _ h w hLH2 hh]
    exact reshape_flatten h w _ hmodlen
  have hmodLL1 : IsRect (idwt2 (dwt2 (dwt2 m).1).1
      (reshape ((dwt2 (dwt2 m).1).2.1).length (rowLen ((dwt2 (dwt2 m).1).2.1))
        (embedded_vector (((dwt2 (dwt2 m).1).2.1).flatten) (text_to_binary text) a s))
      (dwt2 (dwt2 m).1).2.2.1 (dwt2 (dwt2 m).1).2.2.2) (2 * h) (2 * w) :=
    idwt2_shape _ _ _ _ h w hLL2 hmodrect hHL2 hHH2
  have hcrop : cropTo (dwt2 m).2.1.length (rowLen (dwt2 m).2.1)
      (idwt2 (dwt2 (dwt2 m).1).1
        (reshape ((dwt2 (dwt2 m).1).2.1).length (rowLen ((dwt2 (dwt2 m).1).2.1))
          (embedded_vector (((dwt2 (dwt2 m).1).2.1).flatten) (text_to_binary text) a s))
        (dwt2 (dwt2 m).1).2.2.1 (dwt2 (dwt2 m).1).2.2.2)
      = idwt2 (dwt2 (dwt2 m).1).1
        (reshape ((dwt2 (dwt2 m).1).2.1).length (rowLen ((dwt2 (dwt2 m).1).2.1))
          (embedded_vector (((dwt2 (dwt2 m).1).2.1).flatten) (text_to_binary text) a s))
        (dwt2 (dwt2 m).1).2.2.1 (dwt2 (dwt2 m).1).2.2.2 := by
    rw [hLH1.1, rowLen_of_rect _ _ _ hLH1 (by omega)]
    exact cropTo_self _ _ _ hmodLL1
  unfold channel_roundtrip
  unfold embed_channel
  rw [if_neg (rect_not_degenerate m (4 * h) (4 * w) hm (by omega) (by omega)),
    if_neg hbitsne]
  show (extract_channel
      (idwt2 (cropTo (dwt2 m).2.1.length (rowLen (dwt2 m).2.1)
          (idwt2 (dwt2 (dwt2 m).1).1
            (reshape ((dwt2 (dwt2 m).1).2.1).length (rowLen ((dwt2 (dwt2 m).1).2.1))
              (embedded_vector (((dwt2 (dwt2 m).1).2.1).flatten) (text_to_binary text) a s))
            (dwt2 (dwt2 m).1).2.2.1 (dwt2 (dwt2 m).1).2.2.2))
        (dwt2 m).2.1 (dwt2 m).2.2.1 (dwt2 m).2.2.2)
      (((dwt2 (dwt2 m).1).2.1).flatten) a (8 * text.length) s).map binary_to_text
    = some text
  rw [hcrop]
  unfold extract_channel
  rw [if_neg (by omega)]
  have hdwt1 : dwt2 (idwt2 (idwt2 (dwt2 (dwt2 m).1).1
      (reshape ((dwt2 (dwt2 m).1).2.1).length (rowLen ((dwt2 (dwt2 m).1).2.1))
        (embedded_vector (((dwt2 (dwt2 m).1).2.1).flatten) (text_to_binary text) a s))
      (dwt2 (dwt2 m).1).2.2.1 (dwt2 (dwt2 m).1).2.2.2)
      (dwt2 m).2.1 (dwt2 m).2.2.1 (dwt2 m).2.2.2)
      = (idwt2 (dwt2 (dwt2 m).1).1
          (reshape ((dwt2 (dwt2 m).1).2.1).length (rowLen ((dwt2 (dwt2 m).1).2.1))
            (embedded_vector (((dwt2 (dwt2 m).1).2.1).flatten) (text_to_binary text) a s))
          (dwt2 (dwt2 m).1).2.2.1 (dwt2 (dwt2 m).1).2.2.2,
        (dwt2 m).2.1, (dwt2 m).2.2.1, (dwt2 m).2.2.2) :=
    dwt2_idwt2 _ _ _ _ (2 * h) (2 * w) hmodLL1 hLH1 hHL1 hHH1
  rw [hdwt1]
  have hdwt2x : dwt2 (idwt2 (dwt2 (dwt2 m).1).1
      (reshape ((dwt2 (dwt2 m).1).2.1).length (rowLen ((dwt2 (dwt2 m).1).2.1))
        (embedded_vector (((dwt2 (dwt2 m).1).2.1).flatten) (text_to_binary text) a s))
      (dwt2 (dwt2 m).1).2.2.1 (dwt2 (dwt2 m).1).2.2.2)
      = ((dwt2 (dwt2 m).1).1,
        reshape ((dwt2 (dwt2 m).1).2.1).length (rowLen ((dwt2 (dwt2 m).1).2.1))
          (embedded_vector (((dwt2 (dwt2 m).1).2.1).flatten) (text_to_binary text) a s),
        (dwt2 (dwt2 m).1).2.2.1, (dwt2 (dwt2 m).1).2.2.2) :=
    dwt2_idwt2 _ _ _ _ h w hLL2 hmodrect hHL2 hHH2
  show (some (extract_vector ((dwt2 (idwt2 (dwt2 (dwt2 m).1).1
      (reshape ((dwt2 (dwt2 m).1).2.1).length (rowLen ((dwt2 (dwt2 m).1).2.1))
        (embedded_vector (((dwt2 (dwt2 m).1).2.1).flatten) (text_to_binary text) a s))
      (dwt2 (dwt2 m).1).2.2.1 (dwt2 (dwt2 m).1).2.2.2)).2.1).flatten
      (((dwt2 (dwt2 m).1).2.1).flatten) (8 * text.length) s)).map binary_to_text
    = some text
  rw [hdwt2x]
  show (some (extract_vector (reshape ((dwt2 (dwt2 m).1).2.1).length
      (rowLen ((dwt2 (dwt2 m).1).2.1))
      (embedded_vector (((dwt2 (dwt2 m).1).2.1).flatten) (text_to_binary text) a s)).flatten
      (((dwt2 (dwt2 m).1).2.1).flatten) (8 * text.length) s)).map binary_to_text
    = some text
  rw [hmodflat, ← hbitslen]
  rw [vector_roundtrip (((dwt2 (dwt2 m).1).2.1).flatten) (text_to_binary text) a s
    (by omega) (by rw [hbitslen, hN]; omega) ha]
  show some (binary_to_text (text_to_binary text)) = some text
  rw [binary_text_roundtrip text hchars]

/-- Witness for C2's amended statement: a 4×432 all-black image, the text
`"A"` (8 bits, fitting the 108 - 100 capacity) and strength 30. -/
theorem roundtrip_exact_channel_witness :
    IsRect blackImage (4 * 1) (4 * 108) ∧
    (∀ c ∈ ("A" : String).data, c.toNat ≤ 255) ∧
    1 ≤ ("A" : String).length ∧ 100 + 8 * ("A" : String).length ≤ 1 * 108 ∧
    (0 : ℚ) < 30 ∧
    channel_roundtrip blackImage "A" 30 "default" = some "A" :=
  ⟨⟨by decide, by decide⟩, by decide, by decide, by decide, by norm_num,
    roundtrip_exact_channel blackImage 1 108 "A" 30 "default"
      ⟨by decide, by decide⟩ (by decide) (by decide) (by decide) (by norm_num)⟩

end NeuroStamp
